import Mathlib

set_option linter.unusedSectionVars false
set_option linter.unusedVariables false

/-!
Verification development for the `idxhound` package (`src/idxhound/__init__.py`).

The package defines `Selection`, a subclass of `bidict.FrozenOrderedBidict` that
tracks indices across selection operations (boolean masks, integer gathers, key
iterables), supports composition, acts as a numpy index array via `__array__`,
and provides `array_to_dict` and `dict_to_array` conversions.

The embedding below models:
  - the bidirectional ordered mapping layer (provided in the source by the
    external `bidict` dependency, its code absent from `src/`; modelled from
    the spec, section 4.1),
  - the `Selection` construction paths, lookup/batched `__getitem__`,
    `compose`, and the `__array__` view,
  - the numpy facilities the source relies on (`np.nonzero`, boolean and
    integer fancy indexing, `np.indices`-based coordinate enumeration,
    fancy-index assignment with its broadcasting failure mode),
  - `array_to_dict` and `dict_to_array` (each of their two selector branches
    as a separate typed function).

Machine integers are modelled as `Nat`/`Int`; Python exceptions as an explicit
`Err` error type through `Except`.
-/

/-- Error kinds surfaced by the library (spec section 7) plus the two numpy
`ValueError`s reachable in `dict_to_array` (`max()` of an empty values view,
and a failed broadcast in the final fancy-index assignment). -/
inductive Err
  | invalidShapeError
  | duplicateKeyError
  | duplicateValueError
  | keyNotFoundError
  | emptySelectionError
  | broadcastError
  | indexError
  deriving DecidableEq, Repr

/-- A bidirectional ordered mapping: the content of a `Selection` object
(its ordered `(key, position)` pairs, insertion order preserved). -/
structure Selection (α β : Type) where
  pairs : List (α × β)
  deriving DecidableEq, Repr

/-- Well-formedness invariant of a successfully constructed mapping:
keys are pairwise distinct and so are positions (injective both ways). -/
def Selection.WF {α β : Type} [DecidableEq α] [DecidableEq β] (s : Selection α β) : Prop :=
  (s.pairs.map Prod.fst).Nodup ∧ (s.pairs.map Prod.snd).Nodup

instance {α β : Type} [DecidableEq α] [DecidableEq β] (s : Selection α β) :
    Decidable s.WF := by
  unfold Selection.WF; infer_instance

/-- Modelled from the spec: construction of the bidirectional ordered mapping
from a sequence of `(key, position)` pairs. In the source this is
`bidict.FrozenOrderedBidict.__init__` (the `super().__init__(obj)` call in
`Selection.__init__`), whose code is not part of this repository. Spec
section 4.1: it "fails with a DuplicateKeyError/DuplicateValueError kind if
any key or any position repeats"; otherwise the pairs are stored in insertion
order. -/
def Selection.ofPairs {α β : Type} [DecidableEq α] [DecidableEq β] (pairs : List (α × β)) :
    Except Err (Selection α β) :=
  if (pairs.map Prod.fst).Nodup then
    if (pairs.map Prod.snd).Nodup then .ok ⟨pairs⟩
    else .error .duplicateValueError
  else .error .duplicateKeyError

/-- Forward lookup `self[key]` on the underlying mapping: the position stored
for `key`, or `KeyNotFoundError` (Python `KeyError`) if absent. -/
def Selection.lookup {α β : Type} [DecidableEq α] (s : Selection α β) (k : α) : Except Err β :=
  match s.pairs.find? (fun p => decide (p.1 = k)) with
  | some p => .ok p.2
  | none => .error .keyNotFoundError

/-- The `.inverse` view: the same pairs with the roles of keys and positions
swapped (a logical transposition of the backing storage). -/
def Selection.inverse {α β : Type} (s : Selection α β) : Selection β α :=
  ⟨s.pairs.map (fun p => (p.2, p.1))⟩

/-- A dense one-dimensional numpy-style array: a shape (list of axis lengths)
together with the row-major flattened data. -/
structure NDArray (V : Type) where
  shape : List Nat
  data : List V
  deriving DecidableEq, Repr

/-- `np.nonzero` on a one-dimensional boolean array: the indices of the true
entries in ascending order. -/
def npNonzero : List Bool → List Nat
  | [] => []
  | b :: m => (if b then [0] else []) ++ (npNonzero m).map (· + 1)

/-- `Selection.__init__` on an integer array (the non-mapping path with
`obj.dtype != bool`): requires the array to be one-dimensional
(`ValueError` otherwise), builds the pairs `[(i, j) for j, i in enumerate(obj)]`
and hands them to the mapping constructor; the original array is cached as
`self._array` (returned alongside the mapping). -/
def Selection.ofIntArray (x : NDArray Int) :
    Except Err (Selection Int Nat × NDArray Int) :=
  if x.shape.length ≠ 1 then .error .invalidShapeError
  else (Selection.ofPairs (x.data.enum.map (fun p => (p.2, p.1)))).map (fun s => (s, x))

/-- `Selection.__init__` on a boolean array (the non-mapping path with
`obj.dtype == bool`): requires one-dimensionality, replaces the mask by
`np.nonzero(mask)` and enumerates those indices; the cached `self._array`
is the original boolean mask (assigned before the dtype branch). -/
def Selection.ofBoolArray (x : NDArray Bool) :
    Except Err (Selection Nat Nat × NDArray Bool) :=
  if x.shape.length ≠ 1 then .error .invalidShapeError
  else (Selection.ofPairs ((npNonzero x.data).enum.map (fun p => (p.2, p.1)))).map
    (fun s => (s, x))

/-- `Selection.from_iterable(keys)`: the pairs `[(x, i) for i, x in enumerate(keys)]`
passed to the constructor with `mapping=True`. -/
def Selection.from_iterable {α : Type} [DecidableEq α] (keys : List α) :
    Except Err (Selection α Nat) :=
  Selection.ofPairs (keys.enum.map (fun p => (p.2, p.1)))

/-- Exception-aware element-wise mapping, the semantics of a Python list
comprehension whose body may raise: stops at the first raised error. -/
def mapME {α β : Type} (f : α → Except Err β) : List α → Except Err (List β)
  | [] => .ok []
  | x :: xs =>
    match f x with
    | .error e => .error e
    | .ok y =>
      match mapME f xs with
      | .error e => .error e
      | .ok ys => .ok (y :: ys)

/-- `Selection.compose(self, other)` for `other` already a `Selection`:
builds `[(self.inverse[key], value) for key, value in other.items()]` and
constructs a new `Selection` from those pairs with `mapping=True`.
(The source first coerces a non-`Selection` argument through the array
constructor; that branch is the composition of `ofIntArray`/`ofBoolArray`
with this function.) -/
def Selection.compose {α β γ : Type} [DecidableEq α] [DecidableEq β] [DecidableEq γ]
    (s : Selection α β) (o : Selection β γ) : Except Err (Selection α γ) := do
  let pairs ← mapME (fun kv => (s.inverse.lookup kv.1).map (fun k => (k, kv.2))) o.pairs
  Selection.ofPairs pairs

/-- The original keys read out in order of their assigned position
(spec section 3: "the dense array of all original keys ordered by their
assigned position", positions ranging over the stored position values). -/
def Selection.keysByPosition {α : Type} (s : Selection α Nat) : List α :=
  ((List.range ((s.pairs.map Prod.snd).foldl max 0 + 1)).map
    (fun p => s.pairs.find? (fun q => decide (q.2 = p)))).reduceOption.map Prod.fst

/-- `np.fromiter(self, int)` on an integer-keyed mapping-constructed
`Selection` (the `__array__` path when no `_array` cache exists): iterating
a bidict yields its keys in insertion order. Non-integer keys make
`np.fromiter` raise inside numpy; that failure mode is outside this model,
which is only instantiated at integer keys. -/
def Selection.fromiterView {β : Type} (s : Selection Int β) : List Int :=
  s.pairs.map Prod.fst

section BasicLemmas

variable {α β : Type} [DecidableEq α] [DecidableEq β]

theorem Selection.ofPairs_ok_iff (pairs : List (α × β)) (s : Selection α β) :
    Selection.ofPairs pairs = .ok s ↔
      (pairs.map Prod.fst).Nodup ∧ (pairs.map Prod.snd).Nodup ∧ s = ⟨pairs⟩ := by
  unfold Selection.ofPairs
  by_cases h1 : (pairs.map Prod.fst).Nodup <;> by_cases h2 : (pairs.map Prod.snd).Nodup <;>
    simp [h1, h2, eq_comm]

theorem Selection.ofPairs_wf (pairs : List (α × β)) (s : Selection α β)
    (h : Selection.ofPairs pairs = .ok s) : s.WF := by
  rw [Selection.ofPairs_ok_iff] at h
  obtain ⟨h1, h2, rfl⟩ := h
  exact ⟨h1, h2⟩

theorem findPair_of_mem (l : List (α × β)) (k : α) (v : β)
    (hmem : (k, v) ∈ l) (hnd : (l.map Prod.fst).Nodup) :
    l.find? (fun p => decide (p.1 = k)) = some (k, v) := by
  induction l with
  | nil => cases hmem
  | cons p rest ih =>
    simp only [List.map_cons, List.nodup_cons] at hnd
    rcases List.mem_cons.mp hmem with h | h
    · rw [← h]
      exact List.find?_cons_of_pos _ (by simp)
    · have hne : ¬(p.1 = k) := by
        intro he
        exact hnd.1 (he ▸ (List.mem_map.mpr ⟨(k, v), h, rfl⟩))
      rw [List.find?_cons_of_neg _ (by simpa using hne)]
      exact ih h hnd.2

theorem Selection.lookup_ok_of_mem (s : Selection α β) (k : α) (v : β)
    (hmem : (k, v) ∈ s.pairs) (hnd : (s.pairs.map Prod.fst).Nodup) :
    s.lookup k = .ok v := by
  unfold Selection.lookup
  rw [findPair_of_mem s.pairs k v hmem hnd]

theorem Selection.lookup_mem (s : Selection α β) (k : α) (v : β)
    (h : s.lookup k = .ok v) : (k, v) ∈ s.pairs := by
  unfold Selection.lookup at h
  rcases hf : s.pairs.find? (fun p => decide (p.1 = k)) with _ | p
  · rw [hf] at h; cases h
  · rw [hf] at h
    cases h
    have hmem := List.mem_of_find?_eq_some hf
    have hk := List.find?_some hf
    simp only [decide_eq_true_eq] at hk
    have hp : p = (k, p.2) := by
      cases p; simp_all
    rw [hp] at hmem
    exact hmem

theorem findPairSnd_of_mem (l : List (α × β)) (v : β)
    (hmem : v ∈ l.map Prod.snd) :
    ∃ k, l.find? (fun p => decide (p.2 = v)) = some (k, v) ∧ (k, v) ∈ l := by
  induction l with
  | nil => cases hmem
  | cons p rest ih =>
    by_cases he : p.2 = v
    · refine ⟨p.1, ?_, ?_⟩
      · rw [List.find?_cons_of_pos _ (by simp [he])]
        rw [← he]
      · rw [← he]
        exact List.mem_cons_self p rest
    · rcases List.mem_cons.mp hmem with h | h
      · exact absurd h.symm he
      · obtain ⟨k, hk1, hk2⟩ := ih h
        refine ⟨k, ?_, List.mem_cons_of_mem p hk2⟩
        rw [List.find?_cons_of_neg _ (by simpa using he)]
        exact hk1

theorem findSwap_of_findPairSnd (l : List (α × β)) (v : β) (k : α)
    (hfind : l.find? (fun p => decide (p.2 = v)) = some (k, v)) :
    (l.map (fun p => (p.2, p.1))).find? (fun p => decide (p.1 = v)) = some (v, k) := by
  induction l with
  | nil => cases hfind
  | cons p rest ih =>
    by_cases he : p.2 = v
    · rw [List.find?_cons_of_pos _ (by simp [he])] at hfind
      cases hfind
      simp only [List.map_cons]
      rw [List.find?_cons_of_pos _ (by simp [he])]
    · rw [List.find?_cons_of_neg _ (by simpa using he)] at hfind
      simp only [List.map_cons]
      rw [List.find?_cons_of_neg _ (by simpa using he)]
      exact ih hfind

theorem Selection.inverse_lookup_of_mem_positions (s : Selection α β) (v : β)
    (hmem : v ∈ s.pairs.map Prod.snd) :
    ∃ k, s.inverse.lookup v = .ok k ∧ (k, v) ∈ s.pairs := by
  obtain ⟨k, hfind, hkv⟩ := findPairSnd_of_mem s.pairs v hmem
  refine ⟨k, ?_, hkv⟩
  unfold Selection.inverse Selection.lookup
  rw [findSwap_of_findPairSnd s.pairs v k hfind]

/-- Round trip: in a well-formed mapping, a forward hit inverts back. -/
theorem Selection.inverse_lookup_of_lookup (s : Selection α β) (k : α) (v : β)
    (hwf : s.WF) (h : s.lookup k = .ok v) : s.inverse.lookup v = .ok k := by
  have hmem := s.lookup_mem k v h
  have hmem2 : (v, k) ∈ s.inverse.pairs := by
    unfold Selection.inverse
    exact List.mem_map.mpr ⟨(k, v), hmem, rfl⟩
  refine Selection.lookup_ok_of_mem _ _ _ hmem2 ?_
  unfold Selection.inverse
  rw [List.map_map]
  exact hwf.2

/-- Round trip the other way: an inverse hit looks forward again. -/
theorem Selection.lookup_of_inverse_lookup (s : Selection α β) (k : α) (v : β)
    (hwf : s.WF) (h : s.inverse.lookup v = .ok k) : s.lookup k = .ok v := by
  have hmem := Selection.lookup_mem s.inverse v k h
  unfold Selection.inverse at hmem
  obtain ⟨p, hp, he⟩ := List.mem_map.mp hmem
  have h1 : p.1 = k := congrArg Prod.snd he
  have h2 : p.2 = v := congrArg Prod.fst he
  refine Selection.lookup_ok_of_mem _ _ _ ?_ hwf.1
  rw [← h1, ← h2]
  exact hp

end BasicLemmas

section MapMELemmas

variable {α β : Type}

theorem mapME_ok_iff_forall₂ (f : α → Except Err β) (l : List α) (ys : List β) :
    mapME f l = .ok ys ↔ List.Forall₂ (fun x y => f x = .ok y) l ys := by
  induction l generalizing ys with
  | nil =>
    simp only [mapME]
    constructor
    · intro h; cases h; exact List.Forall₂.nil
    · intro h; cases h; rfl
  | cons x xs ih =>
    constructor
    · intro h
      rcases hx : f x with e | y
      · simp [mapME, hx] at h
      · rcases hxs : mapME f xs with e | ys2
        · simp [mapME, hx, hxs] at h
        · simp only [mapME, hx, hxs] at h
          cases h
          exact List.Forall₂.cons hx ((ih ys2).mp hxs)
    · intro h
      cases h with
      | cons hx hrest =>
        simp only [mapME, hx]
        rw [(ih _).mpr hrest]

theorem mapME_ok_of_forall (f : α → Except Err β) (l : List α)
    (h : ∀ x ∈ l, ∃ y, f x = .ok y) :
    ∃ ys, mapME f l = .ok ys ∧ List.Forall₂ (fun x y => f x = .ok y) l ys := by
  induction l with
  | nil => exact ⟨[], rfl, List.Forall₂.nil⟩
  | cons x xs ih =>
    obtain ⟨y, hy⟩ := h x (List.mem_cons_self x xs)
    obtain ⟨ys, hys, hrel⟩ := ih (fun z hz => h z (List.mem_cons_of_mem x hz))
    refine ⟨y :: ys, ?_, List.Forall₂.cons hy hrel⟩
    simp only [mapME, hy, hys]

theorem mapME_ok_map (f : α → Except Err β) (g : α → β) (l : List α)
    (h : ∀ x ∈ l, f x = .ok (g x)) : mapME f l = .ok (l.map g) := by
  rw [mapME_ok_iff_forall₂]
  induction l with
  | nil => exact List.Forall₂.nil
  | cons x xs ih =>
    exact List.Forall₂.cons (h x (List.mem_cons_self x xs))
      (ih (fun z hz => h z (List.mem_cons_of_mem x hz)))

theorem mapME_error_of (f : α → Except Err β) (l : List α) (e₀ : Err)
    (herr : ∀ x ∈ l, ∀ e, f x = .error e → e = e₀)
    (hex : ∃ x ∈ l, ∃ e, f x = .error e) :
    mapME f l = .error e₀ := by
  induction l with
  | nil => obtain ⟨x, hx, _⟩ := hex; cases hx
  | cons x xs ih =>
    rcases hx : f x with e | y
    · have := herr x (List.mem_cons_self x xs) e hx
      subst this
      simp [mapME, hx]
    · have hex2 : ∃ z ∈ xs, ∃ e, f z = .error e := by
        obtain ⟨z, hz, e, he⟩ := hex
        rcases List.mem_cons.mp hz with h | h
        · subst h; rw [hx] at he; cases he
        · exact ⟨z, h, e, he⟩
      simp only [mapME, hx]
      rw [ih (fun z hz => herr z (List.mem_cons_of_mem x hz)) hex2]

theorem mapME_map (f : β → Except Err α) (g : γ → β) (l : List γ) :
    mapME f (l.map g) = mapME (fun x => f (g x)) l := by
  induction l with
  | nil => rfl
  | cons x xs ih => simp only [List.map_cons, mapME, ih]

theorem forall₂_mem_right {R : α → β → Prop} {l : List α} {ys : List β}
    (h : List.Forall₂ R l ys) (b : β) (hb : b ∈ ys) : ∃ a ∈ l, R a b := by
  induction h with
  | nil => cases hb
  | cons hR hrest ih =>
    rcases List.mem_cons.mp hb with h | h
    · subst h
      exact ⟨_, List.mem_cons_self _ _, hR⟩
    · obtain ⟨a, ha, haR⟩ := ih h
      exact ⟨a, List.mem_cons_of_mem _ ha, haR⟩

end MapMELemmas

section EnumLemmas

variable {α : Type} [DecidableEq α]

theorem enumPairs_map_fst (ks : List α) :
    ((ks.enum.map (fun p => (p.2, p.1))).map Prod.fst) = ks := by
  rw [List.map_map]
  exact List.enum_map_snd ks

theorem enumPairs_map_snd (ks : List α) :
    ((ks.enum.map (fun p => (p.2, p.1))).map Prod.snd) = List.range ks.length := by
  rw [List.map_map]
  exact List.enum_map_fst ks

theorem enumPairs_mem (ks : List α) (j : Nat) (hj : j < ks.length) :
    (ks.get ⟨j, hj⟩, j) ∈ ks.enum.map (fun p => (p.2, p.1)) := by
  refine List.mem_map.mpr ⟨(j, ks.get ⟨j, hj⟩), ?_, rfl⟩
  have hj2 : j < ks.enum.length := by simpa using hj
  have h : ks.enum.get ⟨j, hj2⟩ = (j, ks.get ⟨j, hj⟩) := by
    simp [List.getElem_enum]
  rw [← h]
  exact List.get_mem _ _ _

/-- Successful `from_iterable`: distinct keys always construct, storing the
keys paired with their enumeration index. -/
theorem from_iterable_ok (ks : List α) (hnd : ks.Nodup) :
    Selection.from_iterable ks = .ok ⟨ks.enum.map (fun p => (p.2, p.1))⟩ := by
  unfold Selection.from_iterable Selection.ofPairs
  rw [if_pos (by rw [enumPairs_map_fst]; exact hnd),
    if_pos (by rw [enumPairs_map_snd]; exact List.nodup_range _)]

end EnumLemmas


theorem exceptMap_ok {α β : Type} (f : α → β) (a : α) :
    Except.map f (.ok a : Except Err α) = .ok (f a) := rfl

theorem exceptMap_error {α β : Type} (f : α → β) (e : Err) :
    Except.map f (.error e : Except Err α) = .error e := rfl

theorem enumSel_lookup {α : Type} [DecidableEq α] (ks : List α) (hnd : ks.Nodup)
    (j : Nat) (hj : j < ks.length) :
    (Selection.mk (ks.enum.map (fun p => (p.2, p.1)))).lookup (ks.get ⟨j, hj⟩) = .ok j := by
  refine Selection.lookup_ok_of_mem _ _ _ (enumPairs_mem ks j hj) ?_
  show ((ks.enum.map (fun p => (p.2, p.1))).map Prod.fst).Nodup
  rw [enumPairs_map_fst]
  exact hnd

theorem enumSel_wf {α : Type} [DecidableEq α] (ks : List α) (hnd : ks.Nodup) :
    (Selection.mk (ks.enum.map (fun p => (p.2, p.1)))).WF := by
  constructor
  · show ((ks.enum.map (fun p => (p.2, p.1))).map Prod.fst).Nodup
    rw [enumPairs_map_fst]
    exact hnd
  · show ((ks.enum.map (fun p => (p.2, p.1))).map Prod.snd).Nodup
    rw [enumPairs_map_snd]
    exact List.nodup_range _

theorem ofPairs_ok_of_enum {α : Type} [DecidableEq α] (ks : List α) (hnd : ks.Nodup) :
    Selection.ofPairs (ks.enum.map (fun p => (p.2, p.1))) =
      .ok ⟨ks.enum.map (fun p => (p.2, p.1))⟩ := by
  unfold Selection.ofPairs
  rw [if_pos (by rw [enumPairs_map_fst]; exact hnd),
    if_pos (by rw [enumPairs_map_snd]; exact List.nodup_range _)]

/-- C2: for every Selection successfully constructed from a sequence of n
distinct keys (via the integer-array constructor or `from_iterable`), the keys
are assigned the dense positions `0..n-1` in the order supplied (the stored
pairs are exactly the keys zipped with `0..n-1`, so position `j` goes to the
`j`-th key), and for every key `k` with position `p`, `lookup(k) = p` and
inverse lookup of `p` returns `k`. -/
theorem C2_bijection_order_invariant {α : Type} [DecidableEq α] :
    (∀ (ks : List α), ks.Nodup →
      ∃ s, Selection.from_iterable ks = .ok s ∧
        s.pairs.map Prod.fst = ks ∧
        s.pairs.map Prod.snd = List.range ks.length ∧
        ∀ j (hj : j < ks.length),
          s.lookup (ks.get ⟨j, hj⟩) = .ok j ∧
          s.inverse.lookup j = .ok (ks.get ⟨j, hj⟩)) ∧
    (∀ (g : List Int) (m : Nat), g.Nodup →
      ∃ s, Selection.ofIntArray ⟨[m], g⟩ = .ok (s, ⟨[m], g⟩) ∧
        s.pairs.map Prod.fst = g ∧
        s.pairs.map Prod.snd = List.range g.length ∧
        ∀ j (hj : j < g.length),
          s.lookup (g.get ⟨j, hj⟩) = .ok j ∧
          s.inverse.lookup j = .ok (g.get ⟨j, hj⟩)) := by
  constructor
  · intro ks hnd
    refine ⟨⟨ks.enum.map (fun p => (p.2, p.1))⟩, ?_,
      enumPairs_map_fst ks, enumPairs_map_snd ks, ?_⟩
    · unfold Selection.from_iterable
      exact ofPairs_ok_of_enum ks hnd
    · intro j hj
      have hl := enumSel_lookup ks hnd j hj
      exact ⟨hl, Selection.inverse_lookup_of_lookup _ _ _ (enumSel_wf ks hnd) hl⟩
  · intro g m hnd
    refine ⟨⟨g.enum.map (fun p => (p.2, p.1))⟩, ?_,
      enumPairs_map_fst g, enumPairs_map_snd g, ?_⟩
    · unfold Selection.ofIntArray
      rw [if_neg (by simp)]
      show Except.map _ (Selection.ofPairs (g.enum.map (fun p => (p.2, p.1)))) = _
      rw [ofPairs_ok_of_enum g hnd, exceptMap_ok]
    · intro j hj
      have hl := enumSel_lookup g hnd j hj
      exact ⟨hl, Selection.inverse_lookup_of_lookup _ _ _ (enumSel_wf g hnd) hl⟩

/-- C2 witness: the invariant instantiated on the three distinct keys
`a`, `b`, `c`. -/
theorem C2_witness :
    (['a', 'b', 'c'] : List Char).Nodup ∧
    (∃ s, Selection.from_iterable (['a', 'b', 'c'] : List Char) = .ok s ∧
      s.pairs.map Prod.fst = ['a', 'b', 'c'] ∧
      s.pairs.map Prod.snd = List.range (['a', 'b', 'c'] : List Char).length ∧
      ∀ j (hj : j < (['a', 'b', 'c'] : List Char).length),
        s.lookup ((['a', 'b', 'c'] : List Char).get ⟨j, hj⟩) = .ok j ∧
        s.inverse.lookup j = .ok ((['a', 'b', 'c'] : List Char).get ⟨j, hj⟩)) :=
  ⟨by decide, C2_bijection_order_invariant.1 ['a', 'b', 'c'] (by decide)⟩

/-- C6: duplicate rejection at construction, as modelled from the spec for the
mapping layer (section 4.1). A repeated original key in an integer gather or a
key iterable fails with the duplicate-key error; pairs with distinct keys but
a repeated position fail with the duplicate-value error. -/
theorem C6_duplicate_rejection {α β : Type} [DecidableEq α] [DecidableEq β] :
    (∀ (g : List Int) (m : Nat), ¬ g.Nodup →
      Selection.ofIntArray ⟨[m], g⟩ = .error .duplicateKeyError) ∧
    (∀ (ks : List α), ¬ ks.Nodup →
      Selection.from_iterable ks = .error .duplicateKeyError) ∧
    (∀ (pairs : List (α × β)), ¬ (pairs.map Prod.fst).Nodup →
      Selection.ofPairs pairs = .error .duplicateKeyError) ∧
    (∀ (pairs : List (α × β)), (pairs.map Prod.fst).Nodup →
      ¬ (pairs.map Prod.snd).Nodup →
      Selection.ofPairs pairs = .error .duplicateValueError) := by
  refine ⟨?_, ?_, ?_, ?_⟩
  · intro g m hnd
    unfold Selection.ofIntArray
    rw [if_neg (by simp)]
    have hdup : Selection.ofPairs (g.enum.map (fun p => (p.2, p.1))) =
        .error .duplicateKeyError := by
      unfold Selection.ofPairs
      rw [if_neg (by rw [enumPairs_map_fst]; exact hnd)]
    show Except.map _ (Selection.ofPairs (g.enum.map (fun p => (p.2, p.1)))) = _
    rw [hdup, exceptMap_error]
  · intro ks hnd
    unfold Selection.from_iterable Selection.ofPairs
    rw [if_neg (by rw [enumPairs_map_fst]; exact hnd)]
  · intro pairs hnd
    unfold Selection.ofPairs
    rw [if_neg hnd]
  · intro pairs hnd1 hnd2
    unfold Selection.ofPairs
    rw [if_pos hnd1, if_neg hnd2]

/-- C6 witness: the gather `[5, 5]` repeats an original key and is rejected,
and a pair list with a repeated position is rejected. -/
theorem C6_witness :
    ¬ ([5, 5] : List Int).Nodup ∧
    Selection.ofIntArray ⟨[2], [5, 5]⟩ = .error .duplicateKeyError ∧
    Selection.ofPairs ([('a', 0), ('b', 0)] : List (Char × Nat)) =
      .error .duplicateValueError :=
  ⟨by decide,
    (C6_duplicate_rejection (α := Char) (β := Nat)).1 [5, 5] 2 (by decide),
    (C6_duplicate_rejection (α := Char) (β := Nat)).2.2.2 [('a', 0), ('b', 0)]
      (by decide) (by decide)⟩

theorem mem_fun_of_nodup_fst {α β : Type} [DecidableEq α] [DecidableEq β]
    (l : List (α × β)) (hnd : (l.map Prod.fst).Nodup) (c : α) (k1 k2 : β)
    (h1 : (c, k1) ∈ l) (h2 : (c, k2) ∈ l) : k1 = k2 := by
  have e1 := findPair_of_mem l c k1 h1 hnd
  have e2 := findPair_of_mem l c k2 h2 hnd
  rw [e1] at e2
  cases e2
  rfl

theorem mem_of_inverse_lookup {α β : Type} [DecidableEq α] [DecidableEq β] (A : Selection α β)
    (p : β) (k : α) (h : A.inverse.lookup p = .ok k) : (k, p) ∈ A.pairs := by
  have hmem := Selection.lookup_mem A.inverse p k h
  unfold Selection.inverse at hmem
  obtain ⟨q, hq, he⟩ := List.mem_map.mp hmem
  have h1 : q.2 = p := congrArg Prod.fst he
  have h2 : q.1 = k := congrArg Prod.snd he
  rw [← h1, ← h2]
  exact hq

theorem composeElt {α β γ : Type} [DecidableEq α] [DecidableEq β] (A : Selection α β)
    (x : β × γ) (y : α × γ)
    (h : (A.inverse.lookup x.1).map (fun k => (k, x.2)) = .ok y) :
    A.inverse.lookup x.1 = .ok y.1 ∧ y.2 = x.2 := by
  rcases hl : A.inverse.lookup x.1 with e | k
  · rw [hl, exceptMap_error] at h
    cases h
  · rw [hl, exceptMap_ok] at h
    cases h
    exact ⟨rfl, rfl⟩

theorem compose_nodup_fst {α β γ : Type} [DecidableEq α] [DecidableEq β]
    (A : Selection α β) (hAf : (A.pairs.map Prod.fst).Nodup)
    (lB : List (β × γ)) (ys : List (α × γ))
    (hrel : List.Forall₂
      (fun bp cp => A.inverse.lookup bp.1 = .ok cp.1 ∧ cp.2 = bp.2) lB ys)
    (hnd : (lB.map Prod.fst).Nodup) : (ys.map Prod.fst).Nodup := by
  induction hrel with
  | nil => simp
  | @cons bp cp lB2 ys2 hR hrest ih =>
    simp only [List.map_cons, List.nodup_cons] at hnd ⊢
    refine ⟨?_, ih hnd.2⟩
    intro hmem
    obtain ⟨cq, hcq, hfst⟩ := List.mem_map.mp hmem
    obtain ⟨bq, hbq, hRq⟩ := forall₂_mem_right hrest cq hcq
    have m1 : (cp.1, bp.1) ∈ A.pairs := mem_of_inverse_lookup A bp.1 cp.1 hR.1
    have m2 : (cq.1, bq.1) ∈ A.pairs := mem_of_inverse_lookup A bq.1 cq.1 hRq.1
    rw [hfst] at m2
    have heq : bp.1 = bq.1 := mem_fun_of_nodup_fst A.pairs hAf cp.1 bp.1 bq.1 m1 m2
    exact hnd.1 (heq ▸ List.mem_map.mpr ⟨bq, hbq, rfl⟩)

theorem compose_map_snd {α β γ : Type} [DecidableEq α] [DecidableEq β]
    (A : Selection α β) (lB : List (β × γ)) (ys : List (α × γ))
    (hrel : List.Forall₂
      (fun bp cp => A.inverse.lookup bp.1 = .ok cp.1 ∧ cp.2 = bp.2) lB ys) :
    ys.map Prod.snd = lB.map Prod.snd := by
  induction hrel with
  | nil => rfl
  | @cons bp cp lB2 ys2 hR hrest ih =>
    simp only [List.map_cons, ih, hR.2]

/-- C1: composition correctness. General part: for every well-formed Selection
`A` and every well-formed Selection `B` whose keys are all positions of `A`,
`A.compose(B)` succeeds and contains exactly one pair
`(A.inverse[k1], p2)` for each pair `(k1, p2)` of `B`, in order. Concrete
part: with `A = Selection.from_iterable('abc')` and
`B = Selection.from_iterable('def')`, `A.compose(B.inverse)` maps
`'a'` to `'d'`, `'b'` to `'e'`, and `'c'` to `'f'`. -/
theorem C1_composition_correctness {α β γ : Type}
    [DecidableEq α] [DecidableEq β] [DecidableEq γ] :
    (∀ (A : Selection α β) (B : Selection β γ), A.WF → B.WF →
      (∀ k ∈ B.pairs.map Prod.fst, k ∈ A.pairs.map Prod.snd) →
      ∃ C, A.compose B = .ok C ∧
        List.Forall₂
          (fun bp cp => A.inverse.lookup bp.1 = .ok cp.1 ∧ cp.2 = bp.2)
          B.pairs C.pairs) ∧
    ((Selection.from_iterable ['a', 'b', 'c']).bind (fun A =>
      (Selection.from_iterable ['d', 'e', 'f']).bind (fun B =>
        A.compose B.inverse)) =
      .ok ⟨[('a', 'd'), ('b', 'e'), ('c', 'f')]⟩) := by
  constructor
  · intro A B hA hB hsub
    have hall : ∀ kv ∈ B.pairs,
        ∃ y, (A.inverse.lookup kv.1).map (fun k => (k, kv.2)) = .ok y := by
      intro kv hkv
      obtain ⟨k, hk, _⟩ := A.inverse_lookup_of_mem_positions kv.1
        (hsub kv.1 (List.mem_map.mpr ⟨kv, hkv, rfl⟩))
      exact ⟨(k, kv.2), by rw [hk, exceptMap_ok]⟩
    obtain ⟨ys, hys, hrel0⟩ := mapME_ok_of_forall _ B.pairs hall
    have hrel : List.Forall₂
        (fun bp cp => A.inverse.lookup bp.1 = .ok cp.1 ∧ cp.2 = bp.2)
        B.pairs ys := hrel0.imp (fun bp cp h => composeElt A bp cp h)
    refine ⟨⟨ys⟩, ?_, hrel⟩
    unfold Selection.compose
    rw [hys]
    show Selection.ofPairs ys = _
    unfold Selection.ofPairs
    rw [if_pos (compose_nodup_fst A hA.1 B.pairs ys hrel hB.1),
      if_pos (by rw [compose_map_snd A B.pairs ys hrel]; exact hB.2)]
  · rfl

/-- C1 witness: the general composition statement applied to the concrete
selections over keys `a b c` and positions `d e f`. -/
theorem C1_witness :
    (Selection.mk [('a', 0), ('b', 1), ('c', 2)] : Selection Char Nat).WF ∧
    (Selection.mk [(0, 'd'), (1, 'e'), (2, 'f')] : Selection Nat Char).WF ∧
    (∃ C, (Selection.mk [('a', 0), ('b', 1), ('c', 2)] :
        Selection Char Nat).compose
        (Selection.mk [(0, 'd'), (1, 'e'), (2, 'f')] : Selection Nat Char) =
        .ok C ∧
      List.Forall₂
        (fun bp cp =>
          (Selection.mk [('a', 0), ('b', 1), ('c', 2)] :
            Selection Char Nat).inverse.lookup bp.1 = .ok cp.1 ∧ cp.2 = bp.2)
        [(0, 'd'), (1, 'e'), (2, 'f')] C.pairs) :=
  ⟨by decide, by decide,
    C1_composition_correctness.1
      ⟨[('a', 0), ('b', 1), ('c', 2)]⟩ ⟨[(0, 'd'), (1, 'e'), (2, 'f')]⟩
      (by decide) (by decide) (by decide)⟩

/-- Python values as they occur as `__getitem__` arguments: strings, integers
and lists (`str` also stands for the other string-like types `bytes` and
`bytearray`, which the source treats identically). -/
inductive PyObj
  | str : String → PyObj
  | int : Int → PyObj
  | list : List PyObj → PyObj

mutual

def pyObjBeq : PyObj → PyObj → Bool
  | .str a, .str b => decide (a = b)
  | .int a, .int b => decide (a = b)
  | .list a, .list b => pyObjBeqList a b
  | _, _ => false

def pyObjBeqList : List PyObj → List PyObj → Bool
  | [], [] => true
  | x :: xs, y :: ys => pyObjBeq x y && pyObjBeqList xs ys
  | _, _ => false

end

mutual

theorem pyObjBeq_iff : ∀ a b, pyObjBeq a b = true ↔ a = b
  | .str a, .str b => by simp [pyObjBeq]
  | .int a, .int b => by simp [pyObjBeq]
  | .list a, .list b => by
    simp only [pyObjBeq, pyObjBeqList_iff a b, PyObj.list.injEq]
  | .str _, .int _ => by simp [pyObjBeq]
  | .str _, .list _ => by simp [pyObjBeq]
  | .int _, .str _ => by simp [pyObjBeq]
  | .int _, .list _ => by simp [pyObjBeq]
  | .list _, .str _ => by simp [pyObjBeq]
  | .list _, .int _ => by simp [pyObjBeq]

theorem pyObjBeqList_iff : ∀ a b, pyObjBeqList a b = true ↔ a = b
  | [], [] => by simp [pyObjBeqList]
  | x :: xs, y :: ys => by
    simp only [pyObjBeqList, Bool.and_eq_true, pyObjBeq_iff x y,
      pyObjBeqList_iff xs ys, List.cons.injEq]
  | [], _ :: _ => by simp [pyObjBeqList]
  | _ :: _, [] => by simp [pyObjBeqList]

end

instance : DecidableEq PyObj := fun a b => decidable_of_iff _ (pyObjBeq_iff a b)

/-- `isinstance(key, abc.Collection)`: strings and lists are collections,
integers are not. -/
def PyObj.isCollection : PyObj → Bool
  | .str _ => true
  | .list _ => true
  | .int _ => false

/-- `isinstance(key, (str, bytes, bytearray))`. -/
def PyObj.isStrLike : PyObj → Bool
  | .str _ => true
  | .list _ => false
  | .int _ => false

/-- The dispatch guard of `Selection.__getitem__`:
`isinstance(key, abc.Collection) and not isinstance(key, (str, bytes, bytearray))`. -/
def PyObj.isBatch (k : PyObj) : Bool := k.isCollection && !k.isStrLike

theorem PyObj.isBatch_iff (k : PyObj) : k.isBatch = true ↔ ∃ l, k = .list l := by
  cases k <;> simp [PyObj.isBatch, PyObj.isCollection, PyObj.isStrLike]

/-- Results of `Selection.__getitem__`: a position, or a (possibly nested)
list of results. -/
inductive PyRes
  | pos : Nat → PyRes
  | list : List PyRes → PyRes

mutual

/-- `Selection.__getitem__`: by `PyObj.isBatch_iff` the dispatch guard selects
exactly the `.list` constructor, which is broadcast element-wise through the
recursive `[self[x] for x in key]`; strings (although collections) and
integers fall through to the single-key lookup of the underlying mapping. -/
def Selection.pyGetitem (s : Selection PyObj Nat) : PyObj → Except Err PyRes
  | .list l => (Selection.pyGetitemList s l).map .list
  | .str t => (s.lookup (.str t)).map .pos
  | .int n => (s.lookup (.int n)).map .pos

/-- The list comprehension `[self[x] for x in key]` inside `__getitem__`:
element-wise recursive lookup, aborting at the first raised `KeyError`. -/
def Selection.pyGetitemList (s : Selection PyObj Nat) :
    List PyObj → Except Err (List PyRes)
  | [] => .ok []
  | k :: ks =>
    match Selection.pyGetitem s k with
    | .error e => .error e
    | .ok y =>
      match Selection.pyGetitemList s ks with
      | .error e => .error e
      | .ok ys => .ok (y :: ys)

end

theorem pyGetitemList_eq_mapME (s : Selection PyObj Nat) (ks : List PyObj) :
    Selection.pyGetitemList s ks = mapME (Selection.pyGetitem s) ks := by
  induction ks with
  | nil => rfl
  | cons k rest ih =>
    rw [Selection.pyGetitemList, mapME, ih]
    rcases h1 : s.pyGetitem k with e | y
    · rfl
    · rcases h2 : mapME s.pyGetitem rest with e | ys <;> rfl

theorem pyGetitem_atom (s : Selection PyObj Nat) (k : PyObj)
    (h : k.isBatch = false) : s.pyGetitem k = (s.lookup k).map .pos := by
  cases k with
  | str t => rfl
  | int n => rfl
  | list l => simp [PyObj.isBatch, PyObj.isCollection, PyObj.isStrLike] at h

theorem lookup_error_eq {α β : Type} [DecidableEq α] (s : Selection α β) (k : α)
    (e : Err) (h : s.lookup k = .error e) : e = .keyNotFoundError := by
  unfold Selection.lookup at h
  rcases hf : s.pairs.find? (fun p => decide (p.1 = k)) with _ | p <;> rw [hf] at h
  · cases h; rfl
  · cases h

theorem forall₂_map_right_of {α β γ : Type} {R : α → β → Prop} {S : α → γ → Prop}
    (g : β → γ) (H : ∀ a b, R a b → S a (g b)) :
    ∀ {l : List α} {l2 : List β}, List.Forall₂ R l l2 → List.Forall₂ S l (l2.map g) := by
  intro l l2 h
  induction h with
  | nil => exact List.Forall₂.nil
  | cons hR hrest ih => exact List.Forall₂.cons (H _ _ hR) ih

/-- C7: batched lookup dispatch. A list of non-batch keys is looked up
element-wise, returning the ordered list of per-key positions; if any element
is absent the whole call fails with the key-not-found error; a string, though
a collection, is excluded by the dispatch guard and is looked up as one atomic
key; and concretely a selection over the strings a b c looked up with the list
of strings a and c returns the positions 0 and 2. -/
theorem C7_batched_lookup_dispatch :
    (∀ (s : Selection PyObj Nat) (ks : List PyObj) (vs : List Nat),
      List.Forall₂ (fun k v => s.lookup k = .ok v ∧ k.isBatch = false) ks vs →
      s.pyGetitem (.list ks) = .ok (.list (vs.map PyRes.pos))) ∧
    (∀ (s : Selection PyObj Nat) (ks : List PyObj),
      (∀ k ∈ ks, k.isBatch = false) →
      (∃ k ∈ ks, s.lookup k = .error .keyNotFoundError) →
      s.pyGetitem (.list ks) = .error .keyNotFoundError) ∧
    (∀ (s : Selection PyObj Nat) (t : String),
      PyObj.isBatch (.str t) = false ∧
      s.pyGetitem (.str t) = (s.lookup (.str t)).map .pos) ∧
    ((Selection.from_iterable [PyObj.str "a", .str "b", .str "c"]).bind
      (fun s => s.pyGetitem (.list [.str "a", .str "c"])) =
      .ok (.list [.pos 0, .pos 2])) := by
  refine ⟨?_, ?_, ?_, ?_⟩
  · intro s ks vs hrel
    rw [Selection.pyGetitem, pyGetitemList_eq_mapME]
    have : mapME (Selection.pyGetitem s) ks = .ok (vs.map PyRes.pos) := by
      rw [mapME_ok_iff_forall₂]
      refine forall₂_map_right_of PyRes.pos ?_ hrel
      intro k v hkv
      rw [pyGetitem_atom s k hkv.2, hkv.1, exceptMap_ok]
    rw [this, exceptMap_ok]
  · intro s ks hatom hex
    rw [Selection.pyGetitem, pyGetitemList_eq_mapME]
    have : mapME (Selection.pyGetitem s) ks = .error .keyNotFoundError := by
      refine mapME_error_of _ _ _ ?_ ?_
      · intro k hk e he
        rw [pyGetitem_atom s k (hatom k hk)] at he
        rcases hl : s.lookup k with e2 | v <;> rw [hl] at he
        · rw [exceptMap_error] at he
          cases he
          exact lookup_error_eq s k _ hl
        · rw [exceptMap_ok] at he
          cases he
      · obtain ⟨k, hk, he⟩ := hex
        refine ⟨k, hk, .keyNotFoundError, ?_⟩
        rw [pyGetitem_atom s k (hatom k hk), he, exceptMap_error]
    rw [this, exceptMap_error]
  · intro s t
    exact ⟨rfl, rfl⟩
  · rfl

/-- C7 witness: the batched-lookup statement applied to the concrete selection
over the string keys a b c, batched keys a and c, and positions 0 and 2. -/
theorem C7_witness :
    (Selection.mk [(PyObj.str "a", 0), (.str "b", 1), (.str "c", 2)]).pyGetitem
      (.list [.str "a", .str "c"]) = .ok (.list ([0, 2].map PyRes.pos)) :=
  C7_batched_lookup_dispatch.1
    ⟨[(PyObj.str "a", 0), (.str "b", 1), (.str "c", 2)]⟩
    [.str "a", .str "c"] [0, 2]
    (List.Forall₂.cons ⟨rfl, rfl⟩ (List.Forall₂.cons ⟨rfl, rfl⟩ List.Forall₂.nil))

/-- Boolean-mask fancy indexing `x[m]` (matching lengths): the entries of `x`
at the true positions of `m`, in ascending index order. -/
def maskFilter {V : Type} : List V → List Bool → List V
  | v :: x, b :: m => (if b then [v] else []) ++ maskFilter x m
  | _, _ => []

/-- `x[m]` for a one-dimensional `x` and boolean `m`: numpy raises an
IndexError when the mask length differs from the axis length. -/
def npIndexBool {V : Type} (x : List V) (m : List Bool) : Except Err (List V) :=
  if m.length ≠ x.length then .error .indexError else .ok (maskFilter x m)

/-- `x[i]` for a single integer index: negative indices wrap around once,
out-of-range indices raise an IndexError. -/
def npIndexOne {V : Type} (x : List V) (i : Int) : Except Err V :=
  if (if i < 0 then i + (x.length : Int) else i) < 0 then .error .indexError
  else
    match x.get? (if i < 0 then i + (x.length : Int) else i).toNat with
    | some v => .ok v
    | none => .error .indexError

/-- `x[g]` for a one-dimensional `x` and an integer gather `g`: element-wise
single-index gathering. -/
def npIndexInt {V : Type} (x : List V) (g : List Int) : Except Err (List V) :=
  mapME (npIndexOne x) g

theorem ofBoolArray_ok_elim (mb : NDArray Bool) (s : Selection Nat Nat)
    (a : NDArray Bool) (h : Selection.ofBoolArray mb = .ok (s, a)) :
    a = mb ∧ s.pairs = (npNonzero mb.data).enum.map (fun p => (p.2, p.1)) := by
  unfold Selection.ofBoolArray at h
  by_cases hs : mb.shape.length ≠ 1
  · rw [if_pos hs] at h; cases h
  · rw [if_neg hs] at h
    rcases hp : Selection.ofPairs ((npNonzero mb.data).enum.map (fun p => (p.2, p.1)))
      with e | t <;> rw [hp] at h
    · rw [exceptMap_error] at h; cases h
    · rw [exceptMap_ok] at h
      cases h
      rw [Selection.ofPairs_ok_iff] at hp
      exact ⟨rfl, by rw [hp.2.2]⟩

theorem ofIntArray_ok_elim (gb : NDArray Int) (s : Selection Int Nat)
    (a : NDArray Int) (h : Selection.ofIntArray gb = .ok (s, a)) :
    a = gb ∧ s.pairs = gb.data.enum.map (fun p => (p.2, p.1)) := by
  unfold Selection.ofIntArray at h
  by_cases hs : gb.shape.length ≠ 1
  · rw [if_pos hs] at h; cases h
  · rw [if_neg hs] at h
    rcases hp : Selection.ofPairs (gb.data.enum.map (fun p => (p.2, p.1)))
      with e | t <;> rw [hp] at h
    · rw [exceptMap_error] at h; cases h
    · rw [exceptMap_ok] at h
      cases h
      rw [Selection.ofPairs_ok_iff] at hp
      exact ⟨rfl, by rw [hp.2.2]⟩

theorem forall₂_map_left_of {α β γ : Type} {R : α → β → Prop} {S : γ → β → Prop}
    (g : α → γ) (H : ∀ a b, R a b → S (g a) b) :
    ∀ {l : List α} {l2 : List β}, List.Forall₂ R l l2 → List.Forall₂ S (l.map g) l2 := by
  intro l l2 h
  induction h with
  | nil => exact List.Forall₂.nil
  | cons hR hrest ih => exact List.Forall₂.cons (H _ _ hR) ih

theorem forall₂_imp_mem {α β : Type} {R S : α → β → Prop} :
    ∀ {l : List α} {l2 : List β}, List.Forall₂ R l l2 →
      (∀ a ∈ l, ∀ b, R a b → S a b) → List.Forall₂ S l l2 := by
  intro l l2 h
  induction h with
  | nil => intro _; exact List.Forall₂.nil
  | @cons a b l1 l3 hR hrest ih =>
    intro H
    exact List.Forall₂.cons (H a (List.mem_cons_self a l1) b hR)
      (ih (fun z hz => H z (List.mem_cons_of_mem a hz)))

theorem maskFilter_forall₂ {V : Type} :
    ∀ (x : List V) (m : List Bool), m.length = x.length →
      List.Forall₂ (fun i v => x.get? i = some v) (npNonzero m) (maskFilter x m)
  | [], [], _ => List.Forall₂.nil
  | v :: x, b :: m, hlen => by
    have hlen2 : m.length = x.length := by simpa using hlen
    have ih := maskFilter_forall₂ x m hlen2
    have htail : List.Forall₂ (fun i w => (v :: x).get? i = some w)
        ((npNonzero m).map (· + 1)) (maskFilter x m) := by
      refine forall₂_map_left_of (· + 1) ?_ ih
      intro i w hw
      simpa using hw
    cases b with
    | true =>
      show List.Forall₂ _ (0 :: (npNonzero m).map (· + 1)) (v :: maskFilter x m)
      exact List.Forall₂.cons rfl htail
    | false =>
      exact htail

theorem enum_swap_forall₂ {κ V : Type} (R : κ → V → Prop) :
    ∀ (ks : List κ) (y : List V), List.Forall₂ R ks y → ∀ j,
      List.Forall₂ (fun p v => R p.1 v)
        ((List.enumFrom j ks).map (fun p => (p.2, p.1))) y := by
  intro ks y h
  induction h with
  | nil => intro j; exact List.Forall₂.nil
  | cons hR hrest ih =>
    intro j
    exact List.Forall₂.cons hR (ih (j + 1))

theorem npIndexOne_in_range {V : Type} (x : List V) (i : Int)
    (h0 : 0 ≤ i) (hlt : i.toNat < x.length) :
    npIndexOne x i = .ok (x.get ⟨i.toNat, hlt⟩) := by
  unfold npIndexOne
  rw [if_neg (by omega)]
  rw [if_neg (by omega)]
  rw [List.get?_eq_get hlt]

/-- C4: indexing equivalence. For every 1-D array `x` and boolean mask `m`,
indexing `x` with the Selection built from `m` (whose array view is the cached
original `m`) gives the same result as `x[m]`; when the lengths match, the
result pairs each stored `(key, position)` with the element of `x` at that
key. Likewise for an integer gather `g`, indexing through the Selection is
`x[g]`, and with in-range entries the result values are the elements of `x`
at the stored keys. -/
theorem C4_indexing_equivalence {V : Type} :
    (∀ (x : List V) (mb : NDArray Bool) (s : Selection Nat Nat) (a : NDArray Bool),
      Selection.ofBoolArray mb = .ok (s, a) →
      npIndexBool x a.data = npIndexBool x mb.data ∧
      (mb.data.length = x.length →
        ∃ y, npIndexBool x mb.data = .ok y ∧
          List.Forall₂ (fun p v => x.get? p.1 = some v) s.pairs y)) ∧
    (∀ (x : List V) (gb : NDArray Int) (s : Selection Int Nat) (a : NDArray Int),
      Selection.ofIntArray gb = .ok (s, a) →
      npIndexInt x a.data = npIndexInt x gb.data ∧
      ((∀ i ∈ gb.data, 0 ≤ i ∧ i.toNat < x.length) →
        ∃ y, npIndexInt x gb.data = .ok y ∧
          List.Forall₂ (fun p v => x.get? p.1.toNat = some v) s.pairs y)) := by
  constructor
  · intro x mb s a h
    obtain ⟨ha, hpairs⟩ := ofBoolArray_ok_elim mb s a h
    refine ⟨by rw [ha], ?_⟩
    intro hlen
    refine ⟨maskFilter x mb.data, ?_, ?_⟩
    · unfold npIndexBool
      rw [if_neg (by simpa using hlen)]
    · rw [hpairs]
      exact enum_swap_forall₂ (fun i v => x.get? i = some v) _ _
        (maskFilter_forall₂ x mb.data hlen) 0
  · intro x gb s a h
    obtain ⟨ha, hpairs⟩ := ofIntArray_ok_elim gb s a h
    refine ⟨by rw [ha], ?_⟩
    intro hin
    have hall : ∀ i ∈ gb.data, ∃ v, npIndexOne x i = .ok v := by
      intro i hi
      obtain ⟨h0, hlt⟩ := hin i hi
      exact ⟨x.get ⟨i.toNat, hlt⟩, npIndexOne_in_range x i h0 hlt⟩
    obtain ⟨y, hy, hrel⟩ := mapME_ok_of_forall _ gb.data hall
    refine ⟨y, hy, ?_⟩
    rw [hpairs]
    refine enum_swap_forall₂ (fun (i : Int) v => x.get? i.toNat = some v) _ _ ?_ 0
    refine forall₂_imp_mem hrel ?_
    intro i hi v hv
    obtain ⟨h0, hlt⟩ := hin i hi
    rw [npIndexOne_in_range x i h0 hlt] at hv
    cases hv
    rw [List.get?_eq_get hlt]

/-- C4 witness: the equivalence applied to a concrete value array, mask, and
gather. -/
theorem C4_witness :
    (npIndexBool ([10, 20, 30] : List Int) [true, false, true] =
      npIndexBool ([10, 20, 30] : List Int) [true, false, true] ∧
      ([true, false, true] : List Bool).length = ([10, 20, 30] : List Int).length ∧
      (∃ y, npIndexBool ([10, 20, 30] : List Int) [true, false, true] = .ok y ∧
        List.Forall₂ (fun (p : Nat × Nat) v =>
          ([10, 20, 30] : List Int).get? p.1 = some v)
          (Selection.mk [(0, 0), (2, 1)]).pairs y)) ∧
    (∃ y, npIndexInt ([10, 20, 30] : List Int) [2, 0] = .ok y ∧
      List.Forall₂ (fun (p : Int × Nat) v =>
        ([10, 20, 30] : List Int).get? p.1.toNat = some v)
        (Selection.mk [((2 : Int), 0), (0, 1)]).pairs y) := by
  have hb := (C4_indexing_equivalence (V := Int)).1 [10, 20, 30]
    ⟨[3], [true, false, true]⟩ ⟨[(0, 0), (2, 1)]⟩ ⟨[3], [true, false, true]⟩ rfl
  have hi := (C4_indexing_equivalence (V := Int)).2 [10, 20, 30]
    ⟨[2], [2, 0]⟩ ⟨[((2 : Int), 0), (0, 1)]⟩ ⟨[2], [2, 0]⟩ rfl
  exact ⟨⟨hb.1, rfl, hb.2 rfl⟩, hi.2 (by decide)⟩

theorem foldl_max_range : ∀ n : Nat, (List.range n).foldl max 0 = n - 1 := by
  intro n
  induction n with
  | zero => rfl
  | succ m ih =>
    rw [List.range_succ, List.foldl_append, ih]
    simp only [List.foldl_cons, List.foldl_nil]
    omega

theorem findPairSnd_eq_of_mem_nodup {α β : Type} [DecidableEq β]
    (l : List (α × β)) (k : α) (v : β)
    (hmem : (k, v) ∈ l) (hnd : (l.map Prod.snd).Nodup) :
    l.find? (fun q => decide (q.2 = v)) = some (k, v) := by
  induction l with
  | nil => cases hmem
  | cons p rest ih =>
    simp only [List.map_cons, List.nodup_cons] at hnd
    rcases List.mem_cons.mp hmem with h | h
    · rw [← h]
      exact List.find?_cons_of_pos _ (by simp)
    · have hne : ¬(p.2 = v) := by
        intro he
        exact hnd.1 (he ▸ (List.mem_map.mpr ⟨(k, v), h, rfl⟩))
      rw [List.find?_cons_of_neg _ (by simpa using hne)]
      exact ih h hnd.2

theorem reduceOption_map_get_range {α : Type} :
    ∀ ks : List α, ((List.range ks.length).map (fun p => ks.get? p)).reduceOption = ks := by
  intro ks
  induction ks with
  | nil => rfl
  | cons v rest ih =>
    rw [List.length_cons, List.range_succ_eq_map, List.map_cons]
    rw [List.map_map]
    have hcomp : ((fun p => (v :: rest).get? p) ∘ (· + 1)) = fun p => rest.get? p := by
      funext p
      rfl
    rw [hcomp]
    simp only [List.get?_cons_zero, List.reduceOption_cons_of_some, ih]

theorem reduceOption_map_get_range_ge {α : Type} :
    ∀ (ks : List α) (m : Nat), ks.length ≤ m →
      ((List.range m).map (fun p => ks.get? p)).reduceOption = ks := by
  intro ks m
  induction m with
  | zero =>
    intro h
    have : ks = [] := List.eq_nil_of_length_eq_zero (Nat.le_zero.mp h)
    rw [this]
    rfl
  | succ m ih =>
    intro h
    by_cases he : ks.length ≤ m
    · rw [List.range_succ, List.map_append, List.reduceOption_append, ih he]
      rw [List.map_singleton, List.get?_eq_none.mpr he]
      simp
    · have hlen : ks.length = m + 1 := by omega
      rw [← hlen]
      exact reduceOption_map_get_range ks

theorem findSnd_eq_get? {α : Type} [DecidableEq α] (ks : List α) (p : Nat) :
    (ks.enum.map (fun q => (q.2, q.1))).find? (fun q => decide (q.2 = p)) =
      (ks.get? p).map (fun k => (k, p)) := by
  by_cases hp : p < ks.length
  · have hmem := enumPairs_mem ks p hp
    have hnd : ((ks.enum.map (fun q => (q.2, q.1))).map Prod.snd).Nodup := by
      rw [enumPairs_map_snd]
      exact List.nodup_range _
    rw [findPairSnd_eq_of_mem_nodup _ _ _ hmem hnd, List.get?_eq_get hp]
    rfl
  · rw [List.find?_eq_none.mpr, List.get?_eq_none.mpr (by omega)]
    · rfl
    · intro q hq
      obtain ⟨r, hr, he⟩ := List.mem_map.mp hq
      have : q.2 = r.1 := by rw [← he]
      rw [this]
      have : r.1 < ks.length := by
        have hmem2 : r.1 ∈ ks.enum.map Prod.fst := List.mem_map.mpr ⟨r, hr, rfl⟩
        rw [List.enum_map_fst] at hmem2
        exact List.mem_range.mp hmem2
      simp only [decide_eq_true_eq]
      omega

/-- The key array view of an enumeration-built selection is exactly the
supplied key sequence. -/
theorem keysByPosition_enum {α : Type} [DecidableEq α] (ks : List α) :
    (Selection.mk (ks.enum.map (fun p => (p.2, p.1))) : Selection α Nat).keysByPosition
      = ks := by
  unfold Selection.keysByPosition
  have hsnd : ((ks.enum.map (fun p => (p.2, p.1))).map Prod.snd) = List.range ks.length :=
    enumPairs_map_snd ks
  rw [show (Selection.mk (ks.enum.map (fun p => (p.2, p.1))) :
    Selection α Nat).pairs = ks.enum.map (fun p => (p.2, p.1)) from rfl]
  rw [hsnd, foldl_max_range]
  have hcong : (List.range (ks.length - 1 + 1)).map
      (fun p => (ks.enum.map (fun q => (q.2, q.1))).find? (fun q => decide (q.2 = p))) =
      (List.range (ks.length - 1 + 1)).map
      (fun p => ((ks.get? p).map (fun k => (k, p)))) := by
    refine List.map_congr_left ?_
    intro p _
    exact findSnd_eq_get? ks p
  rw [hcong]
  have hfst : ((List.range (ks.length - 1 + 1)).map
      (fun p => ((ks.get? p).map (fun k => (k, p))))).reduceOption.map Prod.fst =
      ((List.range (ks.length - 1 + 1)).map (fun p => ks.get? p)).reduceOption := by
    rw [← List.reduceOption_map]
    congr 1
    rw [List.map_map]
    refine List.map_congr_left ?_
    intro p _
    show Option.map Prod.fst ((ks.get? p).map (fun k => (k, p))) = ks.get? p
    cases ks.get? p <;> rfl
  rw [hfst]
  exact reduceOption_map_get_range_ge ks _ (by omega)

/-- C3 (amended): the array view of a Selection depends on the construction
path. For an integer-gather-built Selection it is the cached gather array,
which equals the original keys ordered by their assigned position; for a
`from_iterable`-built Selection the `np.fromiter` view (keys in insertion
order) equals the keys ordered by position; but for a boolean-mask-built
Selection the view is the cached original boolean mask, not the key array. -/
theorem C3_array_view :
    (∀ (gb : NDArray Int) (s : Selection Int Nat) (a : NDArray Int),
      Selection.ofIntArray gb = .ok (s, a) →
      a.data = s.pairs.map Prod.fst ∧ a.data = s.keysByPosition) ∧
    (∀ (ks : List Int) (s : Selection Int Nat),
      Selection.from_iterable ks = .ok s →
      s.fromiterView = s.keysByPosition ∧ s.fromiterView = ks) ∧
    (∀ (mb : NDArray Bool) (s : Selection Nat Nat) (a : NDArray Bool),
      Selection.ofBoolArray mb = .ok (s, a) → a = mb) := by
  refine ⟨?_, ?_, ?_⟩
  · intro gb s a h
    obtain ⟨ha, hpairs⟩ := ofIntArray_ok_elim gb s a h
    have hs : s = ⟨gb.data.enum.map (fun p => (p.2, p.1))⟩ := by
      cases s
      simp only at hpairs
      rw [hpairs]
    subst hs
    subst ha
    constructor
    · rw [enumPairs_map_fst]
    · rw [keysByPosition_enum]
  · intro ks s h
    unfold Selection.from_iterable at h
    rw [Selection.ofPairs_ok_iff] at h
    obtain ⟨_, _, rfl⟩ := h
    constructor
    · unfold Selection.fromiterView
      rw [enumPairs_map_fst, keysByPosition_enum]
    · unfold Selection.fromiterView
      rw [enumPairs_map_fst]
  · intro mb s a h
    exact (ofBoolArray_ok_elim mb s a h).1

/-- C3 counterexample: the Selection built from the boolean mask
`[True, False, True]` has original keys `0` and `2`, so the claimed array view
would be the two-element key array `[0, 2]`; the actual `__array__` view is
the cached three-element boolean mask itself, which is not the key array
(the lengths already differ). -/
theorem C3_counterexample :
    Selection.ofBoolArray ⟨[3], [true, false, true]⟩ =
      .ok (⟨[(0, 0), (2, 1)]⟩, ⟨[3], [true, false, true]⟩) ∧
    (Selection.mk [(0, 0), (2, 1)] : Selection Nat Nat).keysByPosition = [0, 2] ∧
    ([true, false, true] : List Bool).length ≠ ([0, 2] : List Nat).length :=
  ⟨rfl, rfl, by decide⟩

/-- C3 witness: the amended statement applied to the concrete gather `[4, 7]`
and the concrete key iterable `[4, 7]`. -/
theorem C3_witness :
    ((⟨[2], [4, 7]⟩ : NDArray Int).data =
      (Selection.mk [((4 : Int), 0), (7, 1)]).pairs.map Prod.fst ∧
    (⟨[2], [4, 7]⟩ : NDArray Int).data =
      (Selection.mk [((4 : Int), 0), (7, 1)]).keysByPosition) ∧
    ((Selection.mk [((4 : Int), 0), (7, 1)]).fromiterView =
      (Selection.mk [((4 : Int), 0), (7, 1)]).keysByPosition) :=
  ⟨C3_array_view.1 ⟨[2], [4, 7]⟩ ⟨[((4 : Int), 0), (7, 1)]⟩ ⟨[2], [4, 7]⟩ rfl,
    (C3_array_view.2.1 [4, 7] ⟨[((4 : Int), 0), (7, 1)]⟩ rfl).1⟩

/-- The coordinate vector (one index per axis, row-major) of the flat index
`f` in an array of the given shape, as enumerated by `np.indices`. -/
def unrank : List Nat → Nat → List Nat
  | [], _ => []
  | d :: rest, f => (f / rest.prod) % d :: unrank rest (f % rest.prod)

/-- The row-major flat index of a coordinate vector. -/
def rank : List Nat → List Nat → Nat
  | d :: rest, i :: irest => i * rest.prod + rank rest irest
  | _, _ => 0

/-- Row `a` of `np.reshape(np.indices(x.shape), (x.ndim, -1))`: the axis-`a`
coordinate of every flat index in row-major order. -/
def coordsRow (s : List Nat) (a : Nat) : List Nat :=
  (List.range s.prod).map (fun f => (unrank s f).getD a 0)

/-- The full `(ndim, prod(shape))` index matrix. -/
def coordsMatrix (s : List Nat) : List (List Nat) :=
  (List.range s.length).map (fun a => coordsRow s a)

/-- The number of tuples produced by Python `zip(*rows)`: the length of the
shortest row (zero when there are no rows). -/
def minLen {α : Type} : List (List α) → Nat
  | [] => 0
  | r :: rest => rest.foldl (fun m q => min m q.length) r.length

/-- Python `zip(*rows)` followed by tupling: the transposed list of rows,
truncated to the shortest row. -/
def pyZip {α : Type} (rows : List (List α)) : List (List α) :=
  (List.range (minLen rows)).map (fun f => rows.filterMap (fun r => r.get? f))

/-- Python `dict(pairs)`: insertion-ordered; a later pair with a duplicate key
overwrites the value in place, a fresh key is appended. -/
def pythonDict {κ V : Type} [DecidableEq κ] (l : List (κ × V)) : List (κ × V) :=
  l.foldl (fun acc kv =>
    if acc.any (fun p => decide (p.1 = kv.1)) then
      acc.map (fun p => if p.1 = kv.1 then (p.1, kv.2) else p)
    else acc ++ [kv]) []

theorem rank_unrank : ∀ (s : List Nat) (f : Nat), f < s.prod →
    rank s (unrank s f) = f := by
  intro s
  induction s with
  | nil =>
    intro f hf
    simp only [List.prod_nil, Nat.lt_one_iff] at hf
    subst hf
    rfl
  | cons d rest ih =>
    intro f hf
    rw [List.prod_cons] at hf
    have hP : 0 < rest.prod := by
      rcases Nat.eq_zero_or_pos rest.prod with h | h
      · rw [h] at hf; omega
      · exact h
    have hf2 : f < rest.prod * d := Nat.mul_comm d rest.prod ▸ hf
    have hdiv : f / rest.prod < d := Nat.div_lt_of_lt_mul hf2
    show (f / rest.prod) % d * rest.prod + rank rest (unrank rest (f % rest.prod)) = f
    rw [Nat.mod_eq_of_lt hdiv, ih (f % rest.prod) (Nat.mod_lt f hP)]
    rw [Nat.mul_comm]
    exact Nat.div_add_mod f rest.prod

theorem unrank_length : ∀ (s : List Nat) (f : Nat), (unrank s f).length = s.length := by
  intro s
  induction s with
  | nil => intro f; rfl
  | cons d rest ih =>
    intro f
    show ((f / rest.prod) % d :: unrank rest (f % rest.prod)).length = _
    simp [ih]

theorem unrank_lt : ∀ (s : List Nat) (f : Nat), f < s.prod →
    List.Forall₂ (· < ·) (unrank s f) s := by
  intro s
  induction s with
  | nil => intro f hf; exact List.Forall₂.nil
  | cons d rest ih =>
    intro f hf
    rw [List.prod_cons] at hf
    have hP : 0 < rest.prod := by
      rcases Nat.eq_zero_or_pos rest.prod with h | h
      · rw [h] at hf; omega
      · exact h
    have hd : 0 < d := by
      rcases Nat.eq_zero_or_pos d with h | h
      · rw [h] at hf; omega
      · exact h
    exact List.Forall₂.cons (Nat.mod_lt _ hd) (ih _ (Nat.mod_lt f hP))

theorem unrank_rank : ∀ (s : List Nat) (c : List Nat),
    List.Forall₂ (· < ·) c s → unrank s (rank s c) = c := by
  intro s c h
  induction h with
  | nil => rfl
  | @cons i d irest rest hi hrest ih =>
    have hrlt : rank rest irest < rest.prod := by
      clear ih
      induction hrest with
      | nil => simp [rank]
      | @cons i2 d2 ir2 r2 hi2 hr2 ih2 =>
        show i2 * r2.prod + rank r2 ir2 < d2 * r2.prod
        have h1 : i2 + 1 ≤ d2 := hi2
        calc i2 * r2.prod + rank r2 ir2 < i2 * r2.prod + r2.prod := by omega
        _ = (i2 + 1) * r2.prod := by ring
        _ ≤ d2 * r2.prod := Nat.mul_le_mul_right _ h1
    show (rank (d :: rest) (i :: irest) / rest.prod) % d ::
      unrank rest (rank (d :: rest) (i :: irest) % rest.prod) = i :: irest
    have hP : 0 < rest.prod := by omega
    have hq : rank (d :: rest) (i :: irest) = i * rest.prod + rank rest irest := rfl
    rw [hq]
    have hdiv : (i * rest.prod + rank rest irest) / rest.prod = i := by
      rw [Nat.mul_comm, Nat.mul_add_div hP, Nat.div_eq_of_lt hrlt]
      omega
    have hmod : (i * rest.prod + rank rest irest) % rest.prod = rank rest irest := by
      rw [Nat.add_comm, Nat.add_mul_mod_self_right, Nat.mod_eq_of_lt hrlt]
    rw [hdiv, hmod, Nat.mod_eq_of_lt hi, ih]

theorem rank_lt : ∀ (s : List Nat) (c : List Nat),
    List.Forall₂ (· < ·) c s → rank s c < s.prod := by
  intro s c h
  induction h with
  | nil => simp [rank]
  | @cons i d irest rest hi hrest ih =>
    show i * rest.prod + rank rest irest < (d :: rest).prod
    rw [List.prod_cons]
    have h1 : i + 1 ≤ d := hi
    calc i * rest.prod + rank rest irest < i * rest.prod + rest.prod := by omega
    _ = (i + 1) * rest.prod := by ring
    _ ≤ d * rest.prod := Nat.mul_le_mul_right _ h1

/-- `array_to_dict(x, obj)` with a single selection and `squeeze=True` (the
default for one-dimensional data): checks `x.ndim == len(objects)`, maps the
single index row through the selection's inverse view (a batched lookup), and
builds the Python dict of bare keys zipped with the ravelled data. -/
def array_to_dict1 {α V : Type} [DecidableEq α] (x : NDArray V)
    (obj : Selection α Nat) : Except Err (List (α × V)) :=
  if x.shape.length ≠ 1 then .error .invalidShapeError
  else
    match mapME (fun i => obj.inverse.lookup i) (coordsRow x.shape 0) with
    | .error e => .error e
    | .ok keys => .ok (pythonDict (keys.zip x.data))

/-- `array_to_dict(x, *objects)` on the tuple-key branch (`squeeze=False` or
more than one axis): checks `x.ndim == len(objects)`, maps each index row
through the corresponding selection's inverse view, transposes with
`zip(*idx)`, and zips with the ravelled data into a Python dict. -/
def array_to_dictN {α V : Type} [DecidableEq α] (x : NDArray V)
    (objs : List (Selection α Nat)) : Except Err (List (List α × V)) :=
  if x.shape.length ≠ objs.length then .error .invalidShapeError
  else
    match mapME (fun rc => mapME (fun i => rc.2.inverse.lookup i) rc.1)
      ((coordsMatrix x.shape).zip objs) with
    | .error e => .error e
    | .ok rows => .ok (pythonDict ((pyZip rows).zip x.data))

/-- `max(obj.values()) + 1`: the axis length `dict_to_array` allocates for a
selection; Python `max` raises a `ValueError` on an empty values view. -/
def maxPosPlusOne {α : Type} (obj : Selection α Nat) : Except Err Nat :=
  match obj.pairs with
  | [] => .error .emptySelectionError
  | _ => .ok ((obj.pairs.map Prod.snd).foldl max 0 + 1)

/-- Sequential fancy-index assignment `x[idx] = values` on resolved writes:
each write sets the cell at its flat index (writes are in-range and distinct
in every reachable use; duplicate behaviour is numpy-unspecified and modelled
as last-write-wins). -/
def scatterWrites {V : Type} (x : List V) (writes : List (Nat × V)) : List V :=
  writes.foldl (fun acc w => acc.set w.1 w.2) x

/-- The entry loop of `dict_to_array` for the squeezed one-axis selector
`lambda i: obj[i]`: resolves each bare key, collecting positions and values;
a `KeyError` is re-raised unless `ignore_missing_keys`, in which case the
entry is skipped. -/
def resolve1 {α V : Type} [DecidableEq α] (obj : Selection α Nat) (ign : Bool) :
    List (α × V) → Except Err (List Nat × List V)
  | [] => .ok ([], [])
  | (k, v) :: rest =>
    match obj.lookup k with
    | .ok i =>
      match resolve1 obj ign rest with
      | .error e => .error e
      | .ok (is, vs) => .ok (i :: is, v :: vs)
    | .error e => if ign then resolve1 obj ign rest else .error e

/-- `dict_to_array(d, obj)` with one selection and `squeezed=True`: allocates
a `fill`-filled vector of length `max(obj.values()) + 1`, resolves the
entries, and assigns `x[idx] = values` element-wise. -/
def dict_to_array1 {α V : Type} [DecidableEq α] (d : List (α × V))
    (obj : Selection α Nat) (fill : V) (ign : Bool) : Except Err (List V) :=
  match maxPosPlusOne obj with
  | .error e => .error e
  | .ok n =>
    match resolve1 obj ign d with
    | .error e => .error e
    | .ok (idx, values) =>
      .ok (scatterWrites (List.replicate n fill) (idx.zip values))

/-- The tuple-key selector `lambda i: [obj[j] for j, obj in zip(i, objects)]`
of `dict_to_array` (zip truncates to the shorter of key and selections). -/
def selectorN {α : Type} [DecidableEq α] (objs : List (Selection α Nat))
    (key : List α) : Except Err (List Nat) :=
  mapME (fun p => p.2.lookup p.1) (key.zip objs)

/-- The entry loop of `dict_to_array` for the tuple-key selector. -/
def resolveN {α V : Type} [DecidableEq α] (objs : List (Selection α Nat))
    (ign : Bool) : List (List α × V) → Except Err (List (List Nat) × List V)
  | [] => .ok ([], [])
  | (k, v) :: rest =>
    match selectorN objs k with
    | .ok c =>
      match resolveN objs ign rest with
      | .error e => .error e
      | .ok (is, vs) => .ok (c :: is, v :: vs)
    | .error e => if ign then resolveN objs ign rest else .error e

/-- `x[()] = values`: numpy broadcasts the 1-D list of resolved values across
the whole array; this succeeds only when the list has length one or length
equal to the last axis, and raises a broadcast `ValueError` otherwise — in
particular always when `values` is empty and the array is not. -/
def assignFull {V : Type} (shape : List Nat) (values : List V) :
    Except Err (List V) :=
  if shape.length = 0 then .error .broadcastError
  else
    match values with
    | [v] => .ok (List.replicate shape.prod v)
    | _ =>
      if values.length = shape.getLastD 0 then
        .ok ((List.replicate (shape.prod / values.length) values).flatten)
      else .error .broadcastError

/-- `dict_to_array(d, *objects)` on the tuple-key branch (`squeezed=False` or
`ndim != 1`): allocates the `fill`-filled array shaped by each selection's
`max(values)+1`, resolves the entries, transposes the resolved coordinate
list with `tuple(zip(*idx))` — the empty tuple when nothing resolved, so that
`x[()] = values` broadcasts — and otherwise scatters the writes. -/
def dict_to_arrayN {α V : Type} [DecidableEq α] (d : List (List α × V))
    (objs : List (Selection α Nat)) (fill : V) (ign : Bool) :
    Except Err (NDArray V) :=
  match mapME maxPosPlusOne objs with
  | .error e => .error e
  | .ok shape =>
    match resolveN objs ign d with
    | .error e => .error e
    | .ok (idx, values) =>
      if idx.isEmpty then
        match assignFull shape values with
        | .error e => .error e
        | .ok data => .ok ⟨shape, data⟩
      else
        .ok ⟨shape, scatterWrites (List.replicate shape.prod fill)
          ((idx.map (rank shape)).zip values)⟩

theorem Selection.lookup_error_of_not_mem {α β : Type} [DecidableEq α]
    (s : Selection α β) (k : α) (h : k ∉ s.pairs.map Prod.fst) :
    s.lookup k = .error .keyNotFoundError := by
  unfold Selection.lookup
  rw [List.find?_eq_none.mpr]
  intro p hp
  simp only [decide_eq_true_eq]
  intro he
  exact h (List.mem_map.mpr ⟨p, hp, he⟩)

theorem inverse_keys {α β : Type} (s : Selection α β) :
    s.inverse.pairs.map Prod.fst = s.pairs.map Prod.snd := by
  unfold Selection.inverse
  rw [List.map_map]
  rfl

theorem inverse_positions {α β : Type} (s : Selection α β) :
    s.inverse.pairs.map Prod.snd = s.pairs.map Prod.fst := by
  unfold Selection.inverse
  rw [List.map_map]
  rfl

theorem coordsRow_one_dim (m : Nat) : coordsRow [m] 0 = List.range m := by
  unfold coordsRow
  rw [show ([m] : List Nat).prod = m by simp]
  have : ∀ f ∈ List.range m, (unrank [m] f).getD 0 0 = f := by
    intro f hf
    show (f / List.prod [] % m :: unrank [] (f % List.prod [])).getD 0 0 = f
    simp only [List.prod_nil, Nat.div_one, List.getD_cons_zero]
    exact Nat.mod_eq_of_lt (List.mem_range.mp hf)
  rw [List.map_congr_left this]
  simp

/-- C8 (amended): constructing a Selection from a non-one-dimensional array
fails with the invalid-shape error, and `array_to_dict` fails with the
invalid-shape error exactly when the array's number of dimensions differs
from the number of selection arguments. A selection/axis size mismatch is
not a shape check: an axis longer than its selection's dense position space
fails later with the key-not-found error (and a shorter axis is accepted,
see the counterexample). -/
theorem C8_shape_validation {α V : Type} [DecidableEq α] :
    (∀ (x : NDArray Int), x.shape.length ≠ 1 →
      Selection.ofIntArray x = .error .invalidShapeError) ∧
    (∀ (x : NDArray Bool), x.shape.length ≠ 1 →
      Selection.ofBoolArray x = .error .invalidShapeError) ∧
    (∀ (x : NDArray V) (obj : Selection α Nat), x.shape.length ≠ 1 →
      array_to_dict1 x obj = .error .invalidShapeError) ∧
    (∀ (x : NDArray V) (objs : List (Selection α Nat)),
      x.shape.length ≠ objs.length →
      array_to_dictN x objs = .error .invalidShapeError) ∧
    (∀ (x : NDArray V) (obj : Selection α Nat) (n m : Nat), x.shape = [m] →
      List.Perm (obj.pairs.map Prod.snd) (List.range n) → n < m →
      array_to_dict1 x obj = .error .keyNotFoundError) := by
  refine ⟨?_, ?_, ?_, ?_, ?_⟩
  · intro x h
    unfold Selection.ofIntArray
    rw [if_pos h]
  · intro x h
    unfold Selection.ofBoolArray
    rw [if_pos h]
  · intro x obj h
    unfold array_to_dict1
    rw [if_pos h]
  · intro x objs h
    unfold array_to_dictN
    rw [if_pos h]
  · intro x obj n m hx hperm hlt
    unfold array_to_dict1
    rw [if_neg (by rw [hx]; simp)]
    have hrow : coordsRow x.shape 0 = List.range m := by
      rw [hx]
      exact coordsRow_one_dim m
    have herr : mapME (fun i => obj.inverse.lookup i) (coordsRow x.shape 0) =
        .error .keyNotFoundError := by
      rw [hrow]
      refine mapME_error_of _ _ _ ?_ ?_
      · intro i _ e he
        exact lookup_error_eq _ _ _ he
      · refine ⟨n, List.mem_range.mpr hlt, .keyNotFoundError, ?_⟩
        refine Selection.lookup_error_of_not_mem _ _ ?_
        rw [inverse_keys]
        intro hmem
        have : n ∈ List.range n := hperm.mem_iff.mp hmem
        exact absurd (List.mem_range.mp this) (by omega)
    rw [herr]

/-- C8 counterexample: `array_to_dict` over a length-2 array and a selection
with 3 dense positions (built from the keys a b c) succeeds, returning the
dictionary of the first two keys — it does not fail with the invalid-shape
error the claim requires for a position-space/axis-length mismatch. -/
theorem C8_counterexample :
    (Selection.from_iterable ['a', 'b', 'c']).bind
      (fun s => array_to_dict1 (⟨[2], [10, 20]⟩ : NDArray Int) s) =
      .ok [('a', 10), ('b', 20)] := rfl

/-- C8 witness: the amended shape checks applied to a 2-D integer array, a
dimension-mismatched `array_to_dict` call, and a too-short selection. -/
theorem C8_witness :
    Selection.ofIntArray ⟨[2, 2], [1, 2, 3, 4]⟩ = .error .invalidShapeError ∧
    array_to_dictN (⟨[2], [10, 20]⟩ : NDArray Int)
      ([] : List (Selection Char Nat)) = .error .invalidShapeError ∧
    array_to_dict1 (⟨[4], [10, 20, 30, 40]⟩ : NDArray Int)
      (Selection.mk [('a', 0), ('b', 1), ('c', 2)]) =
      .error .keyNotFoundError :=
  ⟨(C8_shape_validation (α := Char) (V := Int)).1 ⟨[2, 2], [1, 2, 3, 4]⟩ (by decide),
    (C8_shape_validation (α := Char) (V := Int)).2.2.2.1 ⟨[2], [10, 20]⟩ [] (by decide),
    (C8_shape_validation (α := Char) (V := Int)).2.2.2.2 ⟨[4], [10, 20, 30, 40]⟩
      ⟨[('a', 0), ('b', 1), ('c', 2)]⟩ 3 4 rfl (by decide) (by decide)⟩

/-- The inverse-lookup function of a selection as a total function (meaningful
on stored positions; `default` elsewhere). -/
def invKeyFn {α : Type} [DecidableEq α] [Inhabited α] (o : Selection α Nat)
    (i : Nat) : α :=
  match o.inverse.lookup i with
  | .ok k => k
  | .error _ => default

theorem invKeyFn_spec {α : Type} [DecidableEq α] [Inhabited α]
    (o : Selection α Nat) (i : Nat) (h : i ∈ o.pairs.map Prod.snd) :
    o.inverse.lookup i = .ok (invKeyFn o i) := by
  obtain ⟨k, hk, _⟩ := o.inverse_lookup_of_mem_positions i h
  unfold invKeyFn
  rw [hk]

theorem lookup_invKeyFn {α : Type} [DecidableEq α] [Inhabited α]
    (o : Selection α Nat) (i : Nat) (hwf : o.WF) (h : i ∈ o.pairs.map Prod.snd) :
    o.lookup (invKeyFn o i) = .ok i :=
  Selection.lookup_of_inverse_lookup o (invKeyFn o i) i hwf (invKeyFn_spec o i h)

theorem invKeyFn_inj {α : Type} [DecidableEq α] [Inhabited α]
    (o : Selection α Nat) (hwf : o.WF) (i j : Nat)
    (hi : i ∈ o.pairs.map Prod.snd) (hj : j ∈ o.pairs.map Prod.snd)
    (he : invKeyFn o i = invKeyFn o j) : i = j := by
  have h1 := lookup_invKeyFn o i hwf hi
  have h2 := lookup_invKeyFn o j hwf hj
  rw [he] at h1
  rw [h1] at h2
  cases h2
  rfl

theorem foldl_max_perm : ∀ {l1 l2 : List Nat}, List.Perm l1 l2 →
    ∀ a : Nat, l1.foldl max a = l2.foldl max a := by
  intro l1 l2 h
  induction h with
  | nil => intro a; rfl
  | cons x _ ih =>
    intro a
    show List.foldl max (max a x) _ = List.foldl max (max a x) _
    exact ih (max a x)
  | swap x y l =>
    intro a
    show List.foldl max (max (max a y) x) l = List.foldl max (max (max a x) y) l
    rw [Nat.max_assoc, Nat.max_comm y x, ← Nat.max_assoc]
  | trans _ _ ih1 ih2 =>
    intro a
    rw [ih1 a, ih2 a]

/-- For a selection with positions forming a permutation of `0..n-1` with
`n` positive, `max(values) + 1` is exactly `n`. -/
theorem maxPosPlusOne_of_dense {α : Type} (o : Selection α Nat) (n : Nat)
    (hperm : List.Perm (o.pairs.map Prod.snd) (List.range n)) (hn : 1 ≤ n) :
    maxPosPlusOne o = .ok n := by
  have hlen : o.pairs.length = n := by
    have h1 := hperm.length_eq
    simpa using h1
  have hfold : (o.pairs.map Prod.snd).foldl max 0 = n - 1 := by
    rw [foldl_max_perm hperm 0]
    exact foldl_max_range n
  rcases hp : o.pairs with _ | ⟨q, rest⟩
  · exfalso
    rw [hp] at hlen
    simp at hlen
    omega
  · unfold maxPosPlusOne
    rw [hp] at hfold ⊢
    show Except.ok (((q :: rest).map Prod.snd).foldl max 0 + 1) = .ok n
    rw [hfold]
    congr 1
    omega

theorem pythonDict_eq_self {κ V : Type} [DecidableEq κ] (l : List (κ × V))
    (hnd : (l.map Prod.fst).Nodup) : pythonDict l = l := by
  suffices h : ∀ (acc : List (κ × V)), ((acc ++ l).map Prod.fst).Nodup →
      l.foldl (fun acc kv =>
        if acc.any (fun p => decide (p.1 = kv.1)) then
          acc.map (fun p => if p.1 = kv.1 then (p.1, kv.2) else p)
        else acc ++ [kv]) acc = acc ++ l by
    have := h [] (by simpa using hnd)
    simpa [pythonDict] using this
  clear hnd
  induction l with
  | nil => intro acc _; simp
  | cons kv rest ih =>
    intro acc hacc
    have hnotin : ¬ acc.any (fun p => decide (p.1 = kv.1)) = true := by
      rw [List.any_eq_true]
      rintro ⟨p, hp, hpe⟩
      simp only [decide_eq_true_eq] at hpe
      rw [List.map_append, List.nodup_append] at hacc
      refine hacc.2.2 (List.mem_map.mpr ⟨p, hp, rfl⟩) ?_
      rw [hpe]
      exact List.mem_map.mpr ⟨kv, List.mem_cons_self kv rest, rfl⟩
    rw [List.foldl_cons, if_neg hnotin]
    have hacc2 : (((acc ++ [kv]) ++ rest).map Prod.fst).Nodup := by
      rw [List.append_assoc]
      simpa using hacc
    rw [ih (acc ++ [kv]) hacc2, List.append_assoc]
    rfl

theorem scatterWrites_length {V : Type} (ws : List (Nat × V)) :
    ∀ (x : List V), (scatterWrites x ws).length = x.length := by
  induction ws with
  | nil => intro x; rfl
  | cons w rest ih =>
    intro x
    show (scatterWrites (x.set w.1 w.2) rest).length = _
    rw [ih (x.set w.1 w.2), List.length_set]

theorem scatterWrites_get_not_mem {V : Type} (ws : List (Nat × V)) :
    ∀ (x : List V) (i : Nat), i ∉ ws.map Prod.fst →
      (scatterWrites x ws).get? i = x.get? i := by
  induction ws with
  | nil => intro x i _; rfl
  | cons w rest ih =>
    intro x i hi
    simp only [List.map_cons, List.mem_cons] at hi
    push_neg at hi
    show (scatterWrites (x.set w.1 w.2) rest).get? i = _
    rw [ih (x.set w.1 w.2) i hi.2, List.get?_set_ne _ _ (fun he => hi.1 he.symm)]

theorem scatterWrites_get_mem {V : Type} (ws : List (Nat × V)) :
    ∀ (x : List V) (i : Nat) (v : V), (ws.map Prod.fst).Nodup →
      (i, v) ∈ ws → i < x.length →
      (scatterWrites x ws).get? i = some v := by
  induction ws with
  | nil => intro x i v _ hmem _; cases hmem
  | cons w rest ih =>
    intro x i v hnd hmem hlt
    simp only [List.map_cons, List.nodup_cons] at hnd
    rcases List.mem_cons.mp hmem with h | h
    · rw [← h]
      show (scatterWrites (x.set i v) rest).get? i = some v
      rw [scatterWrites_get_not_mem rest (x.set i v) i (by rw [← h] at hnd; exact hnd.1)]
      exact List.get?_set_eq_of_lt v hlt
    · show (scatterWrites (x.set w.1 w.2) rest).get? i = some v
      exact ih (x.set w.1 w.2) i v hnd.2 h (by rw [List.length_set]; exact hlt)

/-- Scattering a list's own enumeration over any same-length buffer
reconstructs the list. -/
theorem scatter_enum {V : Type} (l : List V) (init : List V)
    (hlen : init.length = l.length) : scatterWrites init l.enum = l := by
  refine List.ext_get? ?_
  intro i
  by_cases hi : i < l.length
  · have hmem : (i, l.get ⟨i, hi⟩) ∈ l.enum := by
      have hj2 : i < l.enum.length := by simpa using hi
      have h : l.enum.get ⟨i, hj2⟩ = (i, l.get ⟨i, hi⟩) := by
        simp [List.getElem_enum]
      rw [← h]
      exact List.get_mem _ _ _
    rw [scatterWrites_get_mem l.enum init i (l.get ⟨i, hi⟩)
      (by rw [List.enum_map_fst]; exact List.nodup_range _) hmem (by omega)]
    rw [List.get?_eq_get hi]
  · have h1 : (scatterWrites init l.enum).get? i = none := by
      rw [List.get?_eq_none]
      rw [scatterWrites_length, hlen]
      omega
    have h2 : l.get? i = none := by
      rw [List.get?_eq_none]
      omega
    rw [h1, h2]

theorem filterMap_eq_map_of_some {α β : Type} (g : α → Option β) (m : α → β)
    (l : List α) (h : ∀ x ∈ l, g x = some (m x)) : l.filterMap g = l.map m := by
  induction l with
  | nil => rfl
  | cons x xs ih =>
    rw [List.filterMap_cons, h x (List.mem_cons_self x xs), List.map_cons,
      ih (fun z hz => h z (List.mem_cons_of_mem x hz))]

theorem foldl_min_const (N : Nat) : ∀ (rs : List Nat), (∀ r ∈ rs, r = N) →
    rs.foldl (fun m q => min m q) N = N := by
  intro rs
  induction rs with
  | nil => intro _; rfl
  | cons r rest ih =>
    intro h
    rw [List.foldl_cons, h r (List.mem_cons_self r rest), Nat.min_self]
    exact ih (fun z hz => h z (List.mem_cons_of_mem r hz))

theorem minLen_const {α : Type} (rows : List (List α)) (N : Nat)
    (hne : rows ≠ []) (hall : ∀ r ∈ rows, r.length = N) : minLen rows = N := by
  rcases rows with _ | ⟨r, rest⟩
  · exact absurd rfl hne
  · show rest.foldl (fun m q => min m q.length) r.length = N
    rw [hall r (List.mem_cons_self r rest)]
    have : rest.foldl (fun m q => min m q.length) N =
        (rest.map List.length).foldl (fun m q => min m q) N := by
      rw [List.foldl_map]
    rw [this]
    refine foldl_min_const N (rest.map List.length) ?_
    intro q hq
    obtain ⟨z, hz, he⟩ := List.mem_map.mp hq
    rw [← he]
    exact hall z (List.mem_cons_of_mem r hz)

/-- Python `zip(*rows)` on rows that are all range-maps: the transposition
swaps the two map indices. -/
theorem pyZip_maps {ι κ : Type} (rs : List ι) (F : ι → Nat → κ) (N : Nat)
    (hne : rs ≠ []) :
    pyZip (rs.map (fun r => (List.range N).map (F r))) =
      (List.range N).map (fun f => rs.map (fun r => F r f)) := by
  have hml : minLen (rs.map (fun r => (List.range N).map (F r))) = N := by
    refine minLen_const _ N (by simpa using hne) ?_
    intro r hr
    obtain ⟨z, _, he⟩ := List.mem_map.mp hr
    rw [← he]
    simp
  unfold pyZip
  rw [hml]
  refine List.map_congr_left ?_
  intro f hf
  rw [List.filterMap_map]
  refine filterMap_eq_map_of_some _ _ rs ?_
  intro r _
  show ((List.range N).map (F r)).get? f = some (F r f)
  rw [List.get?_map, List.get?_range (List.mem_range.mp hf)]
  rfl

theorem mapME_error_elim {α β : Type} (f : α → Except Err β) (l : List α)
    (e : Err) (h : mapME f l = .error e) : ∃ x ∈ l, f x = .error e := by
  induction l with
  | nil => cases h
  | cons x xs ih =>
    rcases hx : f x with e2 | y
    · simp only [mapME, hx] at h
      cases h
      exact ⟨x, List.mem_cons_self x xs, hx⟩
    · rcases hxs : mapME f xs with e2 | ys <;> simp only [mapME, hx, hxs] at h
      · cases h
        obtain ⟨z, hz, hze⟩ := ih hxs
        exact ⟨z, List.mem_cons_of_mem x hz, hze⟩
      · cases h

theorem list_eq_range_map_getD (k : Nat) : ∀ (l : List Nat), l.length = k →
    (List.range k).map (fun a => l.getD a 0) = l := by
  induction k with
  | zero =>
    intro l hl
    rw [List.eq_nil_of_length_eq_zero hl]
    rfl
  | succ m ih =>
    intro l hl
    rcases l with _ | ⟨v, rest⟩
    · cases hl
    · have hrest : rest.length = m := by simpa using hl
      rw [List.range_succ_eq_map, List.map_cons, List.map_map]
      have : ((fun a => (v :: rest).getD a 0) ∘ (· + 1)) = fun a => rest.getD a 0 := by
        funext a
        rfl
      rw [this, List.getD_cons_zero, ih rest hrest]

theorem map_eq_imp_forall {α β : Type} (f g : α → β) :
    ∀ (l : List α), l.map f = l.map g → ∀ x ∈ l, f x = g x := by
  intro l
  induction l with
  | nil => intro _ x hx; cases hx
  | cons z zs ih =>
    intro h x hx
    rw [List.map_cons, List.map_cons, List.cons_eq_cons] at h
    rcases List.mem_cons.mp hx with hh | hh
    · rw [hh]; exact h.1
    · exact ih h.2 x hh

theorem forall₂_map_both {α β γ : Type} (R : β → γ → Prop) (f : α → β) (g : α → γ) :
    ∀ (l : List α), (∀ x ∈ l, R (f x) (g x)) →
      List.Forall₂ R (l.map f) (l.map g) := by
  intro l
  induction l with
  | nil => intro _; exact List.Forall₂.nil
  | cons z zs ih =>
    intro h
    exact List.Forall₂.cons (h z (List.mem_cons_self z zs))
      (ih (fun x hx => h x (List.mem_cons_of_mem z hx)))

theorem enum_zip_self {α : Type} (l : List α) :
    l.enum.zip l = l.enum.map (fun p => (p, p.2)) := by
  suffices h : ∀ (j : Nat), (List.enumFrom j l).zip l =
      (List.enumFrom j l).map (fun p => (p, p.2)) by
    exact h 0
  induction l with
  | nil => intro j; rfl
  | cons v rest ih =>
    intro j
    rw [List.enumFrom_cons, List.zip_cons_cons, List.map_cons, ih (j + 1)]

theorem nat_prod_pos : ∀ (s : List Nat), (∀ dd ∈ s, 1 ≤ dd) → 1 ≤ s.prod := by
  intro s
  induction s with
  | nil => intro _; simp
  | cons d rest ih =>
    intro h
    rw [List.prod_cons]
    have h1 := h d (List.mem_cons_self d rest)
    have h2 := ih (fun z hz => h z (List.mem_cons_of_mem d hz))
    exact Nat.one_le_iff_ne_zero.mpr (by positivity)

theorem forall₂_getD_lt : ∀ (c s : List Nat), List.Forall₂ (· < ·) c s →
    ∀ a, a < c.length → c.getD a 0 < s.getD a 0 := by
  intro c s h
  induction h with
  | nil => intro a ha; simp at ha
  | @cons i d irest rest hi hrest ih =>
    intro a ha
    cases a with
    | zero => simpa using hi
    | succ m =>
      show irest.getD m 0 < rest.getD m 0
      exact ih m (by simpa using ha)

theorem filterMap_cons_eq_none {α β : Type} (g : α → Option β) (a : α) (l : List α)
    (h : g a = none) : (a :: l).filterMap g = l.filterMap g := by
  rw [List.filterMap_cons, h]

theorem filterMap_cons_eq_some {α β : Type} (g : α → Option β) (a : α) (l : List α)
    (b : β) (h : g a = some b) : (a :: l).filterMap g = b :: l.filterMap g := by
  rw [List.filterMap_cons, h]

theorem selectorN_error_eq {α : Type} [DecidableEq α]
    (objs : List (Selection α Nat)) (key : List α) (e : Err)
    (h : selectorN objs key = .error e) : e = .keyNotFoundError := by
  obtain ⟨p, _, hp⟩ := mapME_error_elim _ _ e h
  exact lookup_error_eq _ _ _ hp

theorem resolveN_all {α V : Type} [DecidableEq α]
    (objs : List (Selection α Nat)) (ign : Bool) :
    ∀ (d : List (List α × V)) (cs : List (List Nat)),
      List.Forall₂ (fun kv c => selectorN objs kv.1 = .ok c) d cs →
      resolveN objs ign d = .ok (cs, d.map Prod.snd) := by
  intro d cs h
  induction h with
  | nil => rfl
  | @cons kv c drest csrest hkv hrest ih =>
    show resolveN objs ign (kv :: drest) = _
    rcases kv with ⟨k, v⟩
    simp only [resolveN, hkv, ih, List.map_cons]

theorem resolveN_first_err {α V : Type} [DecidableEq α]
    (objs : List (Selection α Nat)) :
    ∀ (d : List (List α × V)),
      (∃ kv ∈ d, ∃ e, selectorN objs kv.1 = .error e) →
      resolveN objs false d = .error .keyNotFoundError := by
  intro d
  induction d with
  | nil => rintro ⟨kv, hkv, _⟩; cases hkv
  | cons kv rest ih =>
    rintro ⟨kw, hkw, e, he⟩
    rcases kv with ⟨k, v⟩
    rcases hsel : selectorN objs k with e2 | c
    · have he2 : e2 = .keyNotFoundError := selectorN_error_eq objs k e2 hsel
      subst he2
      simp only [resolveN, hsel]
      rfl
    · have hrest : ∃ kv ∈ rest, ∃ e, selectorN objs kv.1 = .error e := by
        rcases List.mem_cons.mp hkw with hh | hh
        · subst hh
          rw [hsel] at he
          cases he
        · exact ⟨kw, hh, e, he⟩
      simp only [resolveN, hsel, ih hrest]

theorem resolveN_ignore {α V : Type} [DecidableEq α]
    (objs : List (Selection α Nat)) :
    ∀ (d : List (List α × V)),
      resolveN objs true d = .ok
        ((d.filterMap (fun kv => (selectorN objs kv.1).toOption.map
          (fun c => (c, kv.2)))).map Prod.fst,
         (d.filterMap (fun kv => (selectorN objs kv.1).toOption.map
          (fun c => (c, kv.2)))).map Prod.snd) := by
  intro d
  induction d with
  | nil => rfl
  | cons kv rest ih =>
    rcases kv with ⟨k, v⟩
    rcases hsel : selectorN objs k with e | c
    · simp only [resolveN, hsel]
      rw [if_pos trivial, ih,
        filterMap_cons_eq_none
          (fun kv : List α × V => (selectorN objs kv.1).toOption.map (fun c => (c, kv.2)))
          (k, v) rest (by simp only [hsel]; rfl)]
    · simp only [resolveN, hsel, ih]
      rw [filterMap_cons_eq_some
          (fun kv : List α × V => (selectorN objs kv.1).toOption.map (fun c => (c, kv.2)))
          (k, v) rest (c, v) (by simp only [hsel]; rfl)]
      simp only [List.map_cons]

theorem resolve1_all {α V : Type} [DecidableEq α]
    (obj : Selection α Nat) (ign : Bool) :
    ∀ (d : List (α × V)) (cs : List Nat),
      List.Forall₂ (fun kv c => obj.lookup kv.1 = .ok c) d cs →
      resolve1 obj ign d = .ok (cs, d.map Prod.snd) := by
  intro d cs h
  induction h with
  | nil => rfl
  | @cons kv c drest csrest hkv hrest ih =>
    rcases kv with ⟨k, v⟩
    simp only [resolve1, hkv, ih, List.map_cons]

theorem resolve1_first_err {α V : Type} [DecidableEq α]
    (obj : Selection α Nat) :
    ∀ (d : List (α × V)),
      (∃ kv ∈ d, ∃ e, obj.lookup kv.1 = .error e) →
      resolve1 obj false d = .error .keyNotFoundError := by
  intro d
  induction d with
  | nil => rintro ⟨kv, hkv, _⟩; cases hkv
  | cons kv rest ih =>
    rintro ⟨kw, hkw, e, he⟩
    rcases kv with ⟨k, v⟩
    rcases hsel : obj.lookup k with e2 | c
    · have he2 : e2 = .keyNotFoundError := lookup_error_eq _ _ _ hsel
      subst he2
      simp only [resolve1, hsel]
      rfl
    · have hrest : ∃ kv ∈ rest, ∃ e, obj.lookup kv.1 = .error e := by
        rcases List.mem_cons.mp hkw with hh | hh
        · subst hh
          rw [hsel] at he
          cases he
        · exact ⟨kw, hh, e, he⟩
      simp only [resolve1, hsel, ih hrest]

theorem resolve1_ignore {α V : Type} [DecidableEq α]
    (obj : Selection α Nat) :
    ∀ (d : List (α × V)),
      resolve1 obj true d = .ok
        ((d.filterMap (fun kv => (obj.lookup kv.1).toOption.map
          (fun c => (c, kv.2)))).map Prod.fst,
         (d.filterMap (fun kv => (obj.lookup kv.1).toOption.map
          (fun c => (c, kv.2)))).map Prod.snd) := by
  intro d
  induction d with
  | nil => rfl
  | cons kv rest ih =>
    rcases kv with ⟨k, v⟩
    rcases hsel : obj.lookup k with e | c
    · simp only [resolve1, hsel]
      rw [if_pos trivial, ih,
        filterMap_cons_eq_none
          (fun kv : α × V => (obj.lookup kv.1).toOption.map (fun c => (c, kv.2)))
          (k, v) rest (by simp only [hsel]; rfl)]
    · simp only [resolve1, hsel, ih]
      rw [filterMap_cons_eq_some
          (fun kv : α × V => (obj.lookup kv.1).toOption.map (fun c => (c, kv.2)))
          (k, v) rest (c, v) (by simp only [hsel]; rfl)]
      simp only [List.map_cons]

theorem maxPosPlusOne_ok_of_ne {α : Type} (o : Selection α Nat) (h : o.pairs ≠ []) :
    maxPosPlusOne o = .ok ((o.pairs.map Prod.snd).foldl max 0 + 1) := by
  unfold maxPosPlusOne
  rcases hp : o.pairs with _ | ⟨q, rest⟩
  · exact absurd hp h
  · rw [← hp]
    rw [hp]

theorem getLastD_mem : ∀ (l : List Nat), l ≠ [] → l.getLastD 0 ∈ l := by
  intro l
  induction l with
  | nil => intro h; exact absurd rfl h
  | cons d rest ih =>
    intro _
    rcases hr : rest with _ | ⟨q, rest2⟩
    · simp
    · rw [← hr]
      have hne : rest ≠ [] := by rw [hr]; simp
      rcases rest with _ | ⟨q2, rest3⟩
      · exact absurd rfl hne
      · show (q2 :: rest3).getLastD 0 ∈ d :: q2 :: rest3
        exact List.mem_cons_of_mem d (ih hne)

theorem filterMap_eq_nil_of_none {α β : Type} (g : α → Option β) :
    ∀ (l : List α), (∀ x ∈ l, g x = none) → l.filterMap g = [] := by
  intro l
  induction l with
  | nil => intro _; rfl
  | cons x xs ih =>
    intro h
    rw [List.filterMap_cons, h x (List.mem_cons_self x xs)]
    exact ih (fun z hz => h z (List.mem_cons_of_mem x hz))

/-- C10: with two or more non-empty axis selections and an empty set of
resolved entries (empty input mapping, or `ignore_missing_keys` with every
entry failing to resolve), `dict_to_array` reaches `x[()] = []` in the final
batch assignment and raises the broadcast error instead of returning the
fill-value-filled array; with a single axis selection on the squeezed path,
the same call succeeds and returns the array filled entirely with the fill
value. -/
theorem C10_empty_scatter {α V : Type} [DecidableEq α] :
    (∀ (d : List (List α × V)) (objs : List (Selection α Nat)) (fill : V)
      (ign : Bool), 2 ≤ objs.length → (∀ o ∈ objs, o.pairs ≠ []) →
      (d = [] ∨ (ign = true ∧ ∀ kv ∈ d, ∃ e, selectorN objs kv.1 = .error e)) →
      dict_to_arrayN d objs fill ign = .error .broadcastError) ∧
    (∀ (d : List (α × V)) (obj : Selection α Nat) (fill : V) (ign : Bool),
      obj.pairs ≠ [] →
      (d = [] ∨ (ign = true ∧ ∀ kv ∈ d, ∃ e, obj.lookup kv.1 = .error e)) →
      dict_to_array1 d obj fill ign =
        .ok (List.replicate ((obj.pairs.map Prod.snd).foldl max 0 + 1) fill)) := by
  constructor
  · intro d objs fill ign hk hne hres
    have hshape : mapME maxPosPlusOne objs =
        .ok (objs.map (fun o => (o.pairs.map Prod.snd).foldl max 0 + 1)) :=
      mapME_ok_map _ _ _ (fun o ho => maxPosPlusOne_ok_of_ne o (hne o ho))
    have hresolve : resolveN objs ign d = .ok ([], []) := by
      rcases hres with h | ⟨hign, hall⟩
      · subst h
        cases ign <;> rfl
      · subst hign
        rw [resolveN_ignore]
        rw [filterMap_eq_nil_of_none _ d ?_]
        · rfl
        · intro kv hkv
          obtain ⟨e, he⟩ := hall kv hkv
          rw [he]
          rfl
    have hassign : assignFull
        (objs.map (fun o => (o.pairs.map Prod.snd).foldl max 0 + 1)) ([] : List V) =
        .error .broadcastError := by
      unfold assignFull
      rw [if_neg (by
        simp only [List.length_map]
        omega)]
      have hlast : (objs.map (fun o => (o.pairs.map Prod.snd).foldl max 0 + 1)).getLastD 0
          ≠ 0 := by
        have hmem := getLastD_mem (objs.map (fun o => (o.pairs.map Prod.snd).foldl max 0 + 1))
          (by
            intro hh
            have := congrArg List.length hh
            simp only [List.length_map, List.length_nil] at this
            omega)
        obtain ⟨o, _, he⟩ := List.mem_map.mp hmem
        omega
      show (if ([] : List V).length = _ then _ else _) = _
      rw [if_neg (by
        simp only [List.length_nil]
        omega)]
    simp only [dict_to_arrayN, hshape, hresolve, List.isEmpty_nil, if_pos, hassign]
  · intro d obj fill ign hne hres
    have hmax := maxPosPlusOne_ok_of_ne obj hne
    have hresolve : resolve1 obj ign d = .ok ([], []) := by
      rcases hres with h | ⟨hign, hall⟩
      · subst h
        cases ign <;> rfl
      · subst hign
        rw [resolve1_ignore]
        rw [filterMap_eq_nil_of_none _ d ?_]
        · rfl
        · intro kv hkv
          obtain ⟨e, he⟩ := hall kv hkv
          rw [he]
          rfl
    simp only [dict_to_array1, hmax, hresolve]
    rfl

/-- C10 witness: two singleton axis selections with an empty mapping fail with
the broadcast error; a single axis selection with an empty mapping returns the
fill-filled vector. -/
theorem C10_witness :
    dict_to_arrayN ([] : List (List Char × Int))
      [⟨[('x', 0)]⟩, ⟨[('y', 0)]⟩] 0 false = .error .broadcastError ∧
    dict_to_array1 ([] : List (Char × Int)) ⟨[('x', 0)]⟩ 0 false =
      .ok (List.replicate 1 0) :=
  ⟨C10_empty_scatter.1 [] [⟨[('x', 0)]⟩, ⟨[('y', 0)]⟩] 0 false (by decide)
      (by intro o ho; fin_cases ho <;> simp) (Or.inl rfl),
    C10_empty_scatter.2 [] ⟨[('x', 0)]⟩ 0 false (by simp) (Or.inl rfl)⟩

theorem init_le_foldl_max : ∀ (l : List Nat) (b : Nat), b ≤ l.foldl max b := by
  intro l
  induction l with
  | nil => intro b; exact Nat.le_refl b
  | cons x xs ih =>
    intro b
    rw [List.foldl_cons]
    exact Nat.le_trans (Nat.le_max_left b x) (ih (max b x))

theorem le_foldl_max : ∀ (l : List Nat) (b a : Nat), a ∈ l → a ≤ l.foldl max b := by
  intro l
  induction l with
  | nil => intro b a ha; cases ha
  | cons x xs ih =>
    intro b a ha
    rw [List.foldl_cons]
    rcases List.mem_cons.mp ha with h | h
    · subst h
      exact Nat.le_trans (Nat.le_max_right b a) (init_le_foldl_max xs (max b a))
    · exact ih (max b x) a h

theorem mem_fun_of_nodup_snd {α β : Type} [DecidableEq β] (l : List (α × β))
    (hnd : (l.map Prod.snd).Nodup) (v : β) (k1 k2 : α)
    (h1 : (k1, v) ∈ l) (h2 : (k2, v) ∈ l) : k1 = k2 := by
  have e1 := findPairSnd_eq_of_mem_nodup l k1 v h1 hnd
  have e2 := findPairSnd_eq_of_mem_nodup l k2 v h2 hnd
  rw [e1] at e2
  cases e2
  rfl

theorem selectorN_nil_key {α : Type} [DecidableEq α] (objs : List (Selection α Nat)) :
    selectorN objs [] = .ok [] := rfl

theorem selectorN_cons_ok {α : Type} [DecidableEq α] (o : Selection α Nat)
    (os : List (Selection α Nat)) (x : α) (ks : List α) (c : List Nat) :
    selectorN (o :: os) (x :: ks) = .ok c ↔
      ∃ i c2, o.lookup x = .ok i ∧ selectorN os ks = .ok c2 ∧ c = i :: c2 := by
  show mapME (fun p => p.2.lookup p.1) ((x, o) :: ks.zip os) = .ok c ↔ _
  rw [mapME_ok_iff_forall₂]
  constructor
  · intro h
    cases h with
    | cons hx hrest =>
      exact ⟨_, _, hx, (mapME_ok_iff_forall₂ _ _ _).mpr hrest, rfl⟩
  · rintro ⟨i, c2, hx, hks, rfl⟩
    exact List.Forall₂.cons hx ((mapME_ok_iff_forall₂ _ _ _).mp hks)

theorem selectorN_coord_bounds {α : Type} [DecidableEq α] :
    ∀ (objs : List (Selection α Nat)) (key : List α) (c : List Nat),
      key.length = objs.length → selectorN objs key = .ok c →
      List.Forall₂ (· < ·) c
        (objs.map (fun o => (o.pairs.map Prod.snd).foldl max 0 + 1)) := by
  intro objs
  induction objs with
  | nil =>
    intro key c hlen hsel
    rw [List.length_eq_zero.mp hlen] at hsel
    rw [selectorN_nil_key] at hsel
    cases hsel
    exact List.Forall₂.nil
  | cons o os ih =>
    intro key c hlen hsel
    rcases key with _ | ⟨x, ks⟩
    · cases hlen
    · obtain ⟨i, c2, hx, hks, rfl⟩ := (selectorN_cons_ok o os x ks c).mp hsel
      rw [List.map_cons]
      refine List.Forall₂.cons ?_ (ih ks c2 (by simpa using hlen) hks)
      show i < (o.pairs.map Prod.snd).foldl max 0 + 1
      have hmem : i ∈ o.pairs.map Prod.snd :=
        List.mem_map.mpr ⟨(x, i), Selection.lookup_mem o x i hx, rfl⟩
      have := le_foldl_max (o.pairs.map Prod.snd) 0 i hmem
      omega

theorem selectorN_key_inj {α : Type} [DecidableEq α] :
    ∀ (objs : List (Selection α Nat)) (key1 key2 : List α) (c : List Nat),
      (∀ o ∈ objs, o.WF) → key1.length = objs.length → key2.length = objs.length →
      selectorN objs key1 = .ok c → selectorN objs key2 = .ok c →
      key1 = key2 := by
  intro objs
  induction objs with
  | nil =>
    intro key1 key2 c _ h1 h2 _ _
    rw [List.length_eq_zero.mp h1, List.length_eq_zero.mp h2]
  | cons o os ih =>
    intro key1 key2 c hwf h1 h2 hs1 hs2
    rcases key1 with _ | ⟨x1, ks1⟩
    · cases h1
    rcases key2 with _ | ⟨x2, ks2⟩
    · cases h2
    obtain ⟨i1, c1, hx1, hk1, he1⟩ := (selectorN_cons_ok o os x1 ks1 c).mp hs1
    obtain ⟨i2, c2, hx2, hk2, he2⟩ := (selectorN_cons_ok o os x2 ks2 c).mp hs2
    rw [he1, List.cons.injEq] at he2
    obtain ⟨hi, hc⟩ := he2
    subst hi
    subst hc
    have hx : x1 = x2 :=
      mem_fun_of_nodup_snd o.pairs (hwf o (List.mem_cons_self o os)).2 i1 x1 x2
        (Selection.lookup_mem o x1 i1 hx1) (Selection.lookup_mem o x2 i1 hx2)
    rw [hx, ih ks1 ks2 c1 (fun z hz => hwf z (List.mem_cons_of_mem o hz))
      (by simpa using h1) (by simpa using h2) hk1 hk2]

theorem nodup_filterMap_of_inj {α β : Type} (g : α → Option β) :
    ∀ (l : List α), l.Nodup →
      (∀ x ∈ l, ∀ y ∈ l, ∀ b, g x = some b → g y = some b → x = y) →
      (l.filterMap g).Nodup := by
  intro l
  induction l with
  | nil => intro _ _; simp
  | cons x xs ih =>
    intro hnd hinj
    rw [List.nodup_cons] at hnd
    rcases hx : g x with _ | b
    · rw [filterMap_cons_eq_none g x xs hx]
      exact ih hnd.2 (fun z hz w hw => hinj z (List.mem_cons_of_mem x hz)
        w (List.mem_cons_of_mem x hw))
    · rw [filterMap_cons_eq_some g x xs b hx]
      rw [List.nodup_cons]
      constructor
      · intro hb
        obtain ⟨y, hy, hgy⟩ := List.mem_filterMap.mp hb
        have := hinj x (List.mem_cons_self x xs) y (List.mem_cons_of_mem x hy) b hx hgy
        rw [this] at hnd
        exact hnd.1 hy
      · exact ih hnd.2 (fun z hz w hw => hinj z (List.mem_cons_of_mem x hz)
          w (List.mem_cons_of_mem x hw))

theorem zip_map_same {α β γ : Type} (f : α → β) (g : α → γ) :
    ∀ (l : List α), (l.map f).zip (l.map g) = l.map (fun a => (f a, g a)) := by
  intro l
  induction l with
  | nil => rfl
  | cons x xs ih =>
    rw [List.map_cons, List.map_cons, List.zip_cons_cons, ih, List.map_cons]

theorem mem_pair_eq_of_nodup_fst {α β : Type} :
    ∀ (l : List (α × β)), (l.map Prod.fst).Nodup →
      ∀ (p1 p2 : α × β), p1 ∈ l → p2 ∈ l → p1.1 = p2.1 → p1 = p2 := by
  intro l
  induction l with
  | nil => intro _ p1 p2 h1 _ _; cases h1
  | cons q rest ih =>
    intro hnd p1 p2 h1 h2 he
    rw [List.map_cons, List.nodup_cons] at hnd
    rcases List.mem_cons.mp h1 with hh1 | hh1 <;> rcases List.mem_cons.mp h2 with hh2 | hh2
    · rw [hh1, hh2]
    · exfalso
      subst hh1
      exact hnd.1 (he ▸ List.mem_map.mpr ⟨p2, hh2, rfl⟩)
    · exfalso
      subst hh2
      exact hnd.1 (he ▸ List.mem_map.mpr ⟨p1, hh1, rfl⟩)
    · exact ih hnd.2 p1 p2 hh1 hh2 he

theorem mem_resolved_elim {α V : Type} [DecidableEq α]
    (objs : List (Selection α Nat)) (d : List (List α × V))
    (p : List Nat × V)
    (hp : p ∈ d.filterMap (fun kv =>
      (selectorN objs kv.1).toOption.map (fun c => (c, kv.2)))) :
    ∃ kv ∈ d, selectorN objs kv.1 = .ok p.1 ∧ p.2 = kv.2 := by
  obtain ⟨kv, hkv, hg⟩ := List.mem_filterMap.mp hp
  rcases hsel : selectorN objs kv.1 with e | c <;> rw [hsel] at hg
  · cases hg
  · rw [show (Except.ok c : Except Err (List Nat)).toOption = some c from rfl] at hg
    rw [Option.map_some'] at hg
    cases hg
    exact ⟨kv, hkv, hsel, rfl⟩

theorem mem_resolved_intro {α V : Type} [DecidableEq α]
    (objs : List (Selection α Nat)) (d : List (List α × V))
    (kv : List α × V) (c : List Nat) (hkv : kv ∈ d)
    (hsel : selectorN objs kv.1 = .ok c) :
    (c, kv.2) ∈ d.filterMap (fun kv =>
      (selectorN objs kv.1).toOption.map (fun c => (c, kv.2))) :=
  List.mem_filterMap.mpr ⟨kv, hkv, by rw [hsel]; rfl⟩

theorem replicate_get (n : Nat) {V : Type} (fill : V) (f : Nat) (h : f < n) :
    (List.replicate n fill).get? f = some fill := by
  have hf : f < (List.replicate n fill).length := by simpa using h
  rw [List.get?_eq_get hf, List.get_replicate]

/-- C9 (amended): in `dict_to_array` with `ignore_missing_keys=False`, any
entry whose coordinate has a key absent from its axis selection makes the
whole call fail with the key-not-found error (no array is returned). With
`ignore_missing_keys=True` and at least one entry resolving, the call returns
the array in which every resolving entry is written at its looked-up
coordinates and every other cell retains the fill value, the failing entries
being silently skipped. (When no entry resolves and there are two or more
axes, the call instead fails in the final assignment; see the C10 theorem.)
Both selector branches are covered: the first two conjuncts settle the
tuple-key branch, the last two the squeezed single-axis branch, on which the
`ignore_missing_keys=True` behaviour holds unconditionally — even with no
resolving entry — since `x[[]] = []` succeeds on a vector. -/
theorem C9_missing_key_handling {α V : Type} [DecidableEq α] :
    (∀ (d : List (List α × V)) (objs : List (Selection α Nat)) (fill : V),
      (∀ o ∈ objs, o.pairs ≠ []) →
      (∃ kv ∈ d, ∃ e, selectorN objs kv.1 = .error e) →
      dict_to_arrayN d objs fill false = .error .keyNotFoundError) ∧
    (∀ (d : List (List α × V)) (objs : List (Selection α Nat)) (fill : V),
      (∀ o ∈ objs, o.pairs ≠ []) →
      (∀ o ∈ objs, o.WF) →
      (∀ kv ∈ d, kv.1.length = objs.length) →
      (d.map Prod.fst).Nodup →
      (∃ kv ∈ d, ∃ c, selectorN objs kv.1 = .ok c) →
      ∃ data, dict_to_arrayN d objs fill true =
          .ok ⟨objs.map (fun o => (o.pairs.map Prod.snd).foldl max 0 + 1), data⟩ ∧
        (∀ kv ∈ d, ∀ c, selectorN objs kv.1 = .ok c →
          data.get? (rank (objs.map (fun o => (o.pairs.map Prod.snd).foldl max 0 + 1)) c)
            = some kv.2) ∧
        (∀ f, f < (objs.map (fun o => (o.pairs.map Prod.snd).foldl max 0 + 1)).prod →
          (∀ kv ∈ d, ∀ c, selectorN objs kv.1 = .ok c →
            rank (objs.map (fun o => (o.pairs.map Prod.snd).foldl max 0 + 1)) c ≠ f) →
          data.get? f = some fill)) ∧
    (∀ (d : List (α × V)) (obj : Selection α Nat) (fill : V),
      obj.pairs ≠ [] →
      (∃ kv ∈ d, ∃ e, obj.lookup kv.1 = .error e) →
      dict_to_array1 d obj fill false = .error .keyNotFoundError) ∧
    (∀ (d : List (α × V)) (obj : Selection α Nat) (fill : V),
      obj.pairs ≠ [] →
      obj.WF →
      (d.map Prod.fst).Nodup →
      ∃ data, dict_to_array1 d obj fill true = .ok data ∧
        data.length = (obj.pairs.map Prod.snd).foldl max 0 + 1 ∧
        (∀ kv ∈ d, ∀ c, obj.lookup kv.1 = .ok c → data.get? c = some kv.2) ∧
        (∀ f, f < (obj.pairs.map Prod.snd).foldl max 0 + 1 →
          (∀ kv ∈ d, ∀ c, obj.lookup kv.1 = .ok c → c ≠ f) →
          data.get? f = some fill)) := by
  refine ⟨?_, ?_, ?_, ?_⟩
  · intro d objs fill hne hex
    have hshape : mapME maxPosPlusOne objs =
        .ok (objs.map (fun o => (o.pairs.map Prod.snd).foldl max 0 + 1)) :=
      mapME_ok_map _ _ _ (fun o ho => maxPosPlusOne_ok_of_ne o (hne o ho))
    have hres := resolveN_first_err objs d hex
    simp only [dict_to_arrayN, hshape, hres]
  · intro d objs fill hne hwf hklen hnd hex
    set shape := objs.map (fun o => (o.pairs.map Prod.snd).foldl max 0 + 1) with hsdef
    set R := d.filterMap (fun kv =>
      (selectorN objs kv.1).toOption.map (fun c => (c, kv.2))) with hRdef
    have hshape : mapME maxPosPlusOne objs = .ok shape :=
      mapME_ok_map _ _ _ (fun o ho => maxPosPlusOne_ok_of_ne o (hne o ho))
    have hres : resolveN objs true d = .ok (R.map Prod.fst, R.map Prod.snd) :=
      resolveN_ignore objs d
    obtain ⟨kv0, hkv0, c0, hc0⟩ := hex
    have hmemR : (c0, kv0.2) ∈ R := mem_resolved_intro objs d kv0 c0 hkv0 hc0
    have hboundsR : ∀ p ∈ R, List.Forall₂ (· < ·) p.1 shape := by
      intro p hp
      obtain ⟨kv, hkv, hsel, _⟩ := mem_resolved_elim objs d p hp
      exact selectorN_coord_bounds objs kv.1 p.1 (hklen kv hkv) hsel
    have hrankR : ∀ p ∈ R, rank shape p.1 < shape.prod := by
      intro p hp
      exact rank_lt shape p.1 (hboundsR p hp)
    have hwritesnd : ((R.map Prod.fst).map (rank shape)).zip (R.map Prod.snd) =
        R.map (fun p => (rank shape p.1, p.2)) := by
      rw [List.map_map]
      rw [zip_map_same]
      rfl
    have hwfst : (R.map (fun p => (rank shape p.1, p.2))).map Prod.fst =
        d.filterMap (fun kv => (selectorN objs kv.1).toOption.map (rank shape)) := by
      rw [List.map_map]
      show R.map (fun p => rank shape p.1) = _
      rw [hRdef, List.map_filterMap]
      refine List.filterMap_congr ?_
      intro kv _
      rcases hsel : selectorN objs kv.1 with e | c <;> rfl
    have hnodupW : ((R.map (fun p => (rank shape p.1, p.2))).map Prod.fst).Nodup := by
      rw [hwfst]
      refine nodup_filterMap_of_inj _ d (List.Nodup.of_map _ hnd) ?_
      intro kv1 h1 kv2 h2 r hr1 hr2
      rcases hs1 : selectorN objs kv1.1 with e | c1 <;> rw [hs1] at hr1
      · cases hr1
      rcases hs2 : selectorN objs kv2.1 with e | c2 <;> rw [hs2] at hr2
      · cases hr2
      rw [show (Except.ok c1 : Except Err (List Nat)).toOption = some c1 from rfl,
        Option.map_some'] at hr1
      rw [show (Except.ok c2 : Except Err (List Nat)).toOption = some c2 from rfl,
        Option.map_some'] at hr2
      cases hr1
      have hrr : rank shape c1 = rank shape c2 := by
        injection hr2 with h
        exact h.symm
      have hb1 := selectorN_coord_bounds objs kv1.1 c1 (hklen kv1 h1) hs1
      have hb2 := selectorN_coord_bounds objs kv2.1 c2 (hklen kv2 h2) hs2
      have hc12 : c1 = c2 := by
        have h1u := unrank_rank shape c1 hb1
        have h2u := unrank_rank shape c2 hb2
        rw [← h1u, ← h2u, hrr]
      subst hc12
      have hkeys : kv1.1 = kv2.1 :=
        selectorN_key_inj objs kv1.1 kv2.1 c1 hwf (hklen kv1 h1) (hklen kv2 h2) hs1 hs2
      exact mem_pair_eq_of_nodup_fst d hnd kv1 kv2 h1 h2 hkeys
    have hmain : dict_to_arrayN d objs fill true =
        .ok ⟨shape, scatterWrites (List.replicate shape.prod fill)
          (R.map (fun p => (rank shape p.1, p.2)))⟩ := by
      simp only [dict_to_arrayN, hshape, hres]
      rw [if_neg (by
        rw [List.isEmpty_iff]
        intro hmap
        rw [List.map_eq_nil] at hmap
        rw [hmap] at hmemR
        cases hmemR)]
      rw [hwritesnd]
    refine ⟨_, hmain, ?_, ?_⟩
    · intro kv hkv c hsel
      have hmem : (rank shape c, kv.2) ∈ R.map (fun p => (rank shape p.1, p.2)) :=
        List.mem_map.mpr ⟨(c, kv.2), mem_resolved_intro objs d kv c hkv hsel, rfl⟩
      refine scatterWrites_get_mem _ _ _ _ hnodupW hmem ?_
      rw [List.length_replicate]
      exact hrankR (c, kv.2) (mem_resolved_intro objs d kv c hkv hsel)
    · intro f hf hmiss
      rw [scatterWrites_get_not_mem _ _ f ?_]
      · exact replicate_get shape.prod fill f hf
      · intro hmem
        rw [List.map_map] at hmem
        obtain ⟨p, hp, he⟩ := List.mem_map.mp hmem
        obtain ⟨kv, hkv, hsel, _⟩ := mem_resolved_elim objs d p hp
        exact hmiss kv hkv p.1 hsel he
  · intro d obj fill hne hex
    have hshape := maxPosPlusOne_ok_of_ne obj hne
    have hres := resolve1_first_err obj d hex
    simp only [dict_to_array1, hshape, hres]
  · intro d obj fill hne hwf hnd
    set n := (obj.pairs.map Prod.snd).foldl max 0 + 1 with hndef
    set R := d.filterMap (fun kv =>
      (obj.lookup kv.1).toOption.map (fun c => (c, kv.2))) with hRdef
    have hshape : maxPosPlusOne obj = .ok n := maxPosPlusOne_ok_of_ne obj hne
    have hres : resolve1 obj true d = .ok (R.map Prod.fst, R.map Prod.snd) :=
      resolve1_ignore obj d
    have hzip : (R.map Prod.fst).zip (R.map Prod.snd) = R := by
      rw [zip_map_same]
      have h : (fun p : Nat × V => (p.1, p.2)) = id := funext (fun p => rfl)
      rw [h, List.map_id]
    have hposR : R.map Prod.fst =
        d.filterMap (fun kv => (obj.lookup kv.1).toOption) := by
      rw [hRdef, List.map_filterMap]
      refine List.filterMap_congr ?_
      intro kv _
      rcases hsel : obj.lookup kv.1 with e | c <;> rfl
    have hnodupW : (R.map Prod.fst).Nodup := by
      rw [hposR]
      refine nodup_filterMap_of_inj _ d (List.Nodup.of_map _ hnd) ?_
      intro kv1 h1 kv2 h2 c hc1 hc2
      rcases hs1 : obj.lookup kv1.1 with e | c1 <;> rw [hs1] at hc1
      · cases hc1
      rcases hs2 : obj.lookup kv2.1 with e | c2 <;> rw [hs2] at hc2
      · cases hc2
      rw [show (Except.ok c1 : Except Err Nat).toOption = some c1 from rfl] at hc1
      rw [show (Except.ok c2 : Except Err Nat).toOption = some c2 from rfl] at hc2
      injection hc1 with hc1e
      injection hc2 with hc2e
      subst hc1e
      subst hc2e
      have hm1 := Selection.lookup_mem obj kv1.1 _ hs1
      have hm2 := Selection.lookup_mem obj kv2.1 _ hs2
      have hkeys : kv1.1 = kv2.1 :=
        mem_fun_of_nodup_snd obj.pairs hwf.2 _ kv1.1 kv2.1 hm1 hm2
      exact mem_pair_eq_of_nodup_fst d hnd kv1 kv2 h1 h2 hkeys
    have hmain : dict_to_array1 d obj fill true =
        .ok (scatterWrites (List.replicate n fill) R) := by
      simp only [dict_to_array1, hshape, hres]
      rw [hzip]
    refine ⟨_, hmain, ?_, ?_, ?_⟩
    · rw [scatterWrites_length, List.length_replicate]
    · intro kv hkv c hsel
      have hmemR : (c, kv.2) ∈ R :=
        List.mem_filterMap.mpr ⟨kv, hkv, by rw [hsel]; rfl⟩
      refine scatterWrites_get_mem _ _ _ _ hnodupW hmemR ?_
      rw [List.length_replicate]
      have hm := Selection.lookup_mem obj kv.1 c hsel
      have hc : c ∈ obj.pairs.map Prod.snd := List.mem_map.mpr ⟨(kv.1, c), hm, rfl⟩
      have := le_foldl_max (obj.pairs.map Prod.snd) 0 c hc
      omega
    · intro f hf hmiss
      rw [scatterWrites_get_not_mem _ _ f ?_]
      · exact replicate_get n fill f hf
      · intro hmem
        obtain ⟨p, hp, he⟩ := List.mem_map.mp hmem
        obtain ⟨kv, hkv, hg⟩ := List.mem_filterMap.mp hp
        rcases hsel : obj.lookup kv.1 with e | c <;> rw [hsel] at hg
        · cases hg
        · rw [show (Except.ok c : Except Err Nat).toOption = some c from rfl,
            Option.map_some'] at hg
          cases hg
          exact hmiss kv hkv c hsel he

/-- C9 counterexample: with two axis selections, one entry whose key is
missing, and `ignore_missing_keys=True`, the claimed behaviour is a returned
array all at the fill value; the code instead fails with a broadcast error in
the final empty batch assignment. -/
theorem C9_counterexample :
    dict_to_arrayN [(["q", "y"], (7 : Int))]
      [⟨[("x", 0)]⟩, ⟨[("y", 0)]⟩] 0 true = .error .broadcastError := rfl

/-- C9 witness: on the tuple-key branch, two singleton axes, one resolving
entry and one missing entry under `ignore_missing_keys=True`, and the
fail-fast conjunct on the missing entry with `ignore_missing_keys=False`; on
the squeezed single-axis branch, a two-key selection with one resolving and
one missing entry, exercising the same two conjuncts. -/
theorem C9_witness :
    dict_to_arrayN [([("a" : String), "b"], (7 : Int)), (["q", "b"], 8)]
      [⟨[("a", 0)]⟩, ⟨[("b", 0)]⟩] 0 false = .error .keyNotFoundError ∧
    (∃ data, dict_to_arrayN [([("a" : String), "b"], (7 : Int)), (["q", "b"], 8)]
        [⟨[("a", 0)]⟩, ⟨[("b", 0)]⟩] 0 true =
        .ok ⟨[⟨[("a", 0)]⟩, ⟨[("b", 0)]⟩].map
          (fun o : Selection String Nat =>
            (o.pairs.map Prod.snd).foldl max 0 + 1), data⟩ ∧
      (∀ kv ∈ [([("a" : String), "b"], (7 : Int)), (["q", "b"], 8)],
        ∀ c, selectorN [⟨[("a", 0)]⟩, ⟨[("b", 0)]⟩] kv.1 = .ok c →
        data.get? (rank ([⟨[("a", 0)]⟩, ⟨[("b", 0)]⟩].map
          (fun o : Selection String Nat =>
            (o.pairs.map Prod.snd).foldl max 0 + 1)) c) = some kv.2) ∧
      (∀ f, f < ([⟨[("a", 0)]⟩, ⟨[("b", 0)]⟩].map
          (fun o : Selection String Nat =>
            (o.pairs.map Prod.snd).foldl max 0 + 1)).prod →
        (∀ kv ∈ [([("a" : String), "b"], (7 : Int)), (["q", "b"], 8)],
          ∀ c, selectorN [⟨[("a", 0)]⟩, ⟨[("b", 0)]⟩] kv.1 = .ok c →
          rank ([⟨[("a", 0)]⟩, ⟨[("b", 0)]⟩].map
            (fun o : Selection String Nat =>
              (o.pairs.map Prod.snd).foldl max 0 + 1)) c ≠ f) →
        data.get? f = some 0)) ∧
    dict_to_array1 [(("a" : String), (7 : Int)), ("q", 8)]
      ⟨[("a", 0), ("b", 1)]⟩ 0 false = .error .keyNotFoundError ∧
    (∃ data, dict_to_array1 [(("a" : String), (7 : Int)), ("q", 8)]
        ⟨[("a", 0), ("b", 1)]⟩ 0 true = .ok data ∧
      data.length = (((⟨[("a", 0), ("b", 1)]⟩ : Selection String Nat)).pairs.map
        Prod.snd).foldl max 0 + 1 ∧
      (∀ kv ∈ [(("a" : String), (7 : Int)), ("q", 8)], ∀ c,
        (⟨[("a", 0), ("b", 1)]⟩ : Selection String Nat).lookup kv.1 = .ok c →
        data.get? c = some kv.2) ∧
      (∀ f, f < (((⟨[("a", 0), ("b", 1)]⟩ : Selection String Nat)).pairs.map
          Prod.snd).foldl max 0 + 1 →
        (∀ kv ∈ [(("a" : String), (7 : Int)), ("q", 8)], ∀ c,
          (⟨[("a", 0), ("b", 1)]⟩ : Selection String Nat).lookup kv.1 = .ok c →
          c ≠ f) →
        data.get? f = some 0)) :=
  ⟨C9_missing_key_handling.1 [([("a" : String), "b"], (7 : Int)), (["q", "b"], 8)]
      [⟨[("a", 0)]⟩, ⟨[("b", 0)]⟩] 0
      (by intro o ho; fin_cases ho <;> simp)
      ⟨(["q", "b"], 8), by simp, .keyNotFoundError, rfl⟩,
    C9_missing_key_handling.2.1 [([("a" : String), "b"], (7 : Int)), (["q", "b"], 8)]
      [⟨[("a", 0)]⟩, ⟨[("b", 0)]⟩] 0
      (by intro o ho; fin_cases ho <;> simp)
      (by intro o ho; fin_cases ho <;> decide)
      (by intro kv hkv; fin_cases hkv <;> rfl)
      (by decide)
      ⟨([("a" : String), "b"], (7 : Int)), by simp, [0, 0], rfl⟩,
    C9_missing_key_handling.2.2.1 [(("a" : String), (7 : Int)), ("q", 8)]
      ⟨[("a", 0), ("b", 1)]⟩ 0 (by simp)
      ⟨("q", 8), by simp, .keyNotFoundError, rfl⟩,
    C9_missing_key_handling.2.2.2 [(("a" : String), (7 : Int)), ("q", 8)]
      ⟨[("a", 0), ("b", 1)]⟩ 0 (by simp) (by decide) (by decide)⟩

theorem zip_map_left_same {α β γ : Type} (g : α → γ) :
    ∀ (l1 : List α) (l2 : List β),
      (l1.map g).zip l2 = (l1.zip l2).map (fun q => (g q.1, q.2)) := by
  intro l1
  induction l1 with
  | nil => intro l2; rfl
  | cons x xs ih =>
    intro l2
    rcases l2 with _ | ⟨y, ys⟩
    · rfl
    · rw [List.map_cons, List.zip_cons_cons, List.zip_cons_cons, List.map_cons, ih ys]

theorem zip_range_map_enum {κ V : Type} (g : Nat → κ) (data : List V) (n : Nat)
    (hlen : data.length = n) :
    ((List.range n).map g).zip data = data.enum.map (fun p => (g p.1, p.2)) := by
  rw [List.enum_eq_zip_range, hlen, zip_map_left_same]

theorem mem_enum_elim {γ : Type} {l : List γ} {p : Nat × γ} (hp : p ∈ l.enum) :
    ∃ hlt : p.1 < l.length, p.2 = l.get ⟨p.1, hlt⟩ := by
  obtain ⟨⟨j, hj⟩, he⟩ := List.mem_iff_get.mp hp
  have hlen : j < l.length := by simpa using hj
  have hget : l.enum.get ⟨j, hj⟩ = (j, l.get ⟨j, hlen⟩) := by
    simp [List.getElem_enum]
  rw [hget] at he
  have h1 : p.1 = j := by rw [← he]
  have h2 : p.2 = l.get ⟨j, hlen⟩ := by rw [← he]
  subst h1
  exact ⟨hlen, h2⟩

theorem enum_fst_lt {γ : Type} {l : List γ} {p : Nat × γ} (hp : p ∈ l.enum) :
    p.1 < l.length :=
  (mem_enum_elim hp).1

theorem enum_eta {γ : Type} (l : List γ) :
    l.enum.map (fun p => (p.1, p.2)) = l.enum := by
  have h : (fun p : Nat × γ => (p.1, p.2)) = id := funext (fun p => rfl)
  rw [h, List.map_id]

theorem foldl_plus_one_of_dense {α : Type} (o : Selection α Nat) (n : Nat)
    (hperm : List.Perm (o.pairs.map Prod.snd) (List.range n)) (hn : 1 ≤ n) :
    (o.pairs.map Prod.snd).foldl max 0 + 1 = n := by
  rw [foldl_max_perm hperm 0, foldl_max_range]
  omega

/-- Part A of the round trip: one axis, default squeeze flags. -/
theorem roundtrip_one_dim {α V : Type} [DecidableEq α] [Inhabited α]
    (x : NDArray V) (obj : Selection α Nat) (fill : V) (n : Nat)
    (hx : x.shape = [n]) (hd : x.data.length = n) (hn : 1 ≤ n)
    (hwf : obj.WF) (hdense : List.Perm (obj.pairs.map Prod.snd) (List.range n)) :
    (array_to_dict1 x obj).bind (fun d => dict_to_array1 d obj fill false) =
      .ok x.data := by
  have hmempos : ∀ i, i < n → i ∈ obj.pairs.map Prod.snd := by
    intro i hi
    exact hdense.mem_iff.mpr (List.mem_range.mpr hi)
  have hrow : coordsRow x.shape 0 = List.range n := by
    rw [hx]
    exact coordsRow_one_dim n
  have hkeys : mapME (fun i => obj.inverse.lookup i) (coordsRow x.shape 0) =
      .ok ((List.range n).map (invKeyFn obj)) := by
    rw [hrow]
    refine mapME_ok_map _ _ _ ?_
    intro i hi
    exact invKeyFn_spec obj i (hmempos i (List.mem_range.mp hi))
  have hzip : ((List.range n).map (invKeyFn obj)).zip x.data =
      x.data.enum.map (fun p => (invKeyFn obj p.1, p.2)) :=
    zip_range_map_enum (invKeyFn obj) x.data n hd
  have hnodup : ((x.data.enum.map (fun p => (invKeyFn obj p.1, p.2))).map Prod.fst).Nodup := by
    rw [List.map_map]
    have h1 : (Prod.fst ∘ fun p : Nat × V => (invKeyFn obj p.1, p.2)) =
        (invKeyFn obj) ∘ Prod.fst := by
      funext p
      rfl
    rw [h1, ← List.map_map, List.enum_map_fst, hd]
    refine List.Nodup.map_on ?_ (List.nodup_range n)
    intro i hi j hj he
    exact invKeyFn_inj obj hwf i j (hmempos i (List.mem_range.mp hi))
      (hmempos j (List.mem_range.mp hj)) he
  have hatd : array_to_dict1 x obj =
      .ok (x.data.enum.map (fun p => (invKeyFn obj p.1, p.2))) := by
    unfold array_to_dict1
    rw [if_neg (by rw [hx]; simp)]
    rw [hkeys]
    show Except.ok (pythonDict (((List.range n).map (invKeyFn obj)).zip x.data)) = _
    rw [hzip, pythonDict_eq_self _ hnodup]
  rw [hatd]
  show dict_to_array1 (x.data.enum.map (fun p => (invKeyFn obj p.1, p.2))) obj fill false
    = .ok x.data
  have hmax : maxPosPlusOne obj = .ok n := maxPosPlusOne_of_dense obj n hdense hn
  have hresolve : resolve1 obj false (x.data.enum.map (fun p => (invKeyFn obj p.1, p.2))) =
      .ok (x.data.enum.map Prod.fst,
        (x.data.enum.map (fun p => (invKeyFn obj p.1, p.2))).map Prod.snd) := by
    refine resolve1_all obj false _ _ ?_
    refine forall₂_map_both _ _ _ x.data.enum ?_
    intro p hp
    show obj.lookup (invKeyFn obj p.1) = .ok p.1
    refine lookup_invKeyFn obj p.1 hwf (hmempos p.1 ?_)
    have := enum_fst_lt hp
    omega
  have hvals : (x.data.enum.map (fun p => (invKeyFn obj p.1, p.2))).map Prod.snd =
      x.data := by
    rw [List.map_map]
    have h1 : (Prod.snd ∘ fun p : Nat × V => (invKeyFn obj p.1, p.2)) = Prod.snd := by
      funext p
      rfl
    rw [h1, List.enum_map_snd]
  have hwrites : (x.data.enum.map Prod.fst).zip x.data = x.data.enum := by
    rw [zip_map_left_same Prod.fst x.data.enum x.data, enum_zip_self, List.map_map]
    exact enum_eta x.data
  simp only [dict_to_array1, hmax, hresolve, hvals, hwrites]
  rw [scatter_enum x.data (List.replicate n fill) (by simp [hd])]

theorem mem_enum_intro {γ : Type} (l : List γ) (a : Nat) (h : a < l.length) :
    (a, l.get ⟨a, h⟩) ∈ l.enum := by
  have hj2 : a < l.enum.length := by simpa using h
  have hget : l.enum.get ⟨a, hj2⟩ = (a, l.get ⟨a, h⟩) := by
    simp [List.getElem_enum]
  rw [← hget]
  exact List.get_mem _ _ _

theorem getD_of_lt (l : List Nat) (a : Nat) (h : a < l.length) :
    l.getD a 0 = l.get ⟨a, h⟩ := by
  rw [List.getD_eq_get?, List.get?_eq_get h]
  rfl

theorem map_maxfn_eq_shape {α : Type} [DecidableEq α]
    (objs : List (Selection α Nat)) (s : List Nat)
    (hlen : s.length = objs.length)
    (hpos : ∀ dd ∈ s, 1 ≤ dd)
    (hax : ∀ a (ha : a < objs.length),
      List.Perm ((objs.get ⟨a, ha⟩).pairs.map Prod.snd) (List.range (s.getD a 0))) :
    objs.map (fun o => (o.pairs.map Prod.snd).foldl max 0 + 1) = s := by
  refine List.ext_get (by simpa using hlen.symm) ?_
  intro a h1 h2
  have ha : a < objs.length := by simpa using h1
  have hgd : s.getD a 0 = s.get ⟨a, h2⟩ := getD_of_lt s a h2
  have hone : 1 ≤ s.getD a 0 := by
    rw [hgd]
    exact hpos _ (List.get_mem s a h2)
  have := foldl_plus_one_of_dense (objs.get ⟨a, ha⟩) (s.getD a 0) (hax a ha) hone
  rw [List.get_map]
  rw [this]
  exact hgd

/-- Part B of the round trip: the tuple-key branch over any number of axes. -/
theorem roundtrip_multi_dim {α V : Type} [DecidableEq α] [Inhabited α]
    (x : NDArray V) (objs : List (Selection α Nat)) (fill : V)
    (hlen : x.shape.length = objs.length) (hk : 1 ≤ objs.length)
    (hdata : x.data.length = x.shape.prod)
    (hpos : ∀ dd ∈ x.shape, 1 ≤ dd)
    (hax : ∀ a (ha : a < objs.length), (objs.get ⟨a, ha⟩).WF ∧
      List.Perm ((objs.get ⟨a, ha⟩).pairs.map Prod.snd)
        (List.range (x.shape.getD a 0))) :
    (array_to_dictN x objs).bind (fun d => dict_to_arrayN d objs fill false) =
      .ok x := by
  have haxq : ∀ q ∈ objs.enum, q.2.WF ∧
      List.Perm (q.2.pairs.map Prod.snd) (List.range (x.shape.getD q.1 0)) := by
    intro q hq
    obtain ⟨hlt, he⟩ := mem_enum_elim hq
    rw [he]
    exact hax q.1 hlt
  have hcoord : ∀ (q : Nat × Selection α Nat), q ∈ objs.enum →
      ∀ f, f < x.shape.prod →
      (unrank x.shape f).getD q.1 0 ∈ q.2.pairs.map Prod.snd := by
    intro q hq f hf
    have hqlt : q.1 < objs.length := enum_fst_lt hq
    have hblt : (unrank x.shape f).getD q.1 0 < x.shape.getD q.1 0 := by
      refine forall₂_getD_lt _ _ (unrank_lt x.shape f hf) q.1 ?_
      rw [unrank_length, hlen]
      exact hqlt
    exact (haxq q hq).2.mem_iff.mpr (List.mem_range.mpr hblt)
  have henne : objs.enum ≠ [] := by
    intro h
    have := congrArg List.length h
    simp only [List.enum_length, List.length_nil] at this
    omega
  have hrows : mapME (fun rc => mapME (fun i => rc.2.inverse.lookup i) rc.1)
      ((coordsMatrix x.shape).zip objs) =
      .ok (objs.enum.map (fun q => (List.range x.shape.prod).map
        (fun f => invKeyFn q.2 ((unrank x.shape f).getD q.1 0)))) := by
    have hzipform : (coordsMatrix x.shape).zip objs =
        objs.enum.map (fun q => (coordsRow x.shape q.1, q.2)) := by
      unfold coordsMatrix
      rw [hlen, zip_map_left_same (coordsRow x.shape) (List.range objs.length) objs,
        ← List.enum_eq_zip_range]
    rw [hzipform, mapME_map]
    refine mapME_ok_map _ _ _ ?_
    intro q hq
    show mapME (fun i => q.2.inverse.lookup i)
      ((List.range x.shape.prod).map (fun f => (unrank x.shape f).getD q.1 0)) = _
    rw [mapME_map]
    refine mapME_ok_map _ _ _ ?_
    intro f hf
    exact invKeyFn_spec q.2 _ (hcoord q hq f (List.mem_range.mp hf))
  have hpyzip : pyZip (objs.enum.map (fun q => (List.range x.shape.prod).map
      (fun f => invKeyFn q.2 ((unrank x.shape f).getD q.1 0)))) =
      (List.range x.shape.prod).map (fun f => objs.enum.map
        (fun q => invKeyFn q.2 ((unrank x.shape f).getD q.1 0))) :=
    pyZip_maps objs.enum
      (fun q f => invKeyFn q.2 ((unrank x.shape f).getD q.1 0))
      x.shape.prod henne
  have hzipkeys : ((List.range x.shape.prod).map (fun f => objs.enum.map
      (fun q => invKeyFn q.2 ((unrank x.shape f).getD q.1 0)))).zip x.data =
      x.data.enum.map (fun p => (objs.enum.map
        (fun q => invKeyFn q.2 ((unrank x.shape p.1).getD q.1 0)), p.2)) :=
    zip_range_map_enum _ x.data x.shape.prod hdata
  have hunrankinj : ∀ f1, f1 < x.shape.prod → ∀ f2, f2 < x.shape.prod →
      objs.enum.map (fun q => invKeyFn q.2 ((unrank x.shape f1).getD q.1 0)) =
      objs.enum.map (fun q => invKeyFn q.2 ((unrank x.shape f2).getD q.1 0)) →
      f1 = f2 := by
    intro f1 hf1 f2 hf2 heq
    have hpt := map_eq_imp_forall _ _ objs.enum heq
    have hcoords : unrank x.shape f1 = unrank x.shape f2 := by
      have hl1 : (unrank x.shape f1).length = objs.length := by
        rw [unrank_length, hlen]
      have hl2 : (unrank x.shape f2).length = objs.length := by
        rw [unrank_length, hlen]
      rw [← list_eq_range_map_getD objs.length (unrank x.shape f1) hl1,
        ← list_eq_range_map_getD objs.length (unrank x.shape f2) hl2]
      refine List.map_congr_left ?_
      intro a haa
      have ha : a < objs.length := List.mem_range.mp haa
      have hmem := mem_enum_intro objs a ha
      have := hpt (a, objs.get ⟨a, ha⟩) hmem
      exact invKeyFn_inj (objs.get ⟨a, ha⟩) (hax a ha).1 _ _
        (hcoord (a, objs.get ⟨a, ha⟩) hmem f1 hf1)
        (hcoord (a, objs.get ⟨a, ha⟩) hmem f2 hf2) this
    rw [← rank_unrank x.shape f1 hf1, ← rank_unrank x.shape f2 hf2, hcoords]
  have hnodup : ((x.data.enum.map (fun p => (objs.enum.map
      (fun q => invKeyFn q.2 ((unrank x.shape p.1).getD q.1 0)), p.2))).map
        Prod.fst).Nodup := by
    rw [List.map_map]
    have h1 : (Prod.fst ∘ fun p : Nat × V => (objs.enum.map
        (fun q => invKeyFn q.2 ((unrank x.shape p.1).getD q.1 0)), p.2)) =
        (fun f => objs.enum.map
          (fun q => invKeyFn q.2 ((unrank x.shape f).getD q.1 0))) ∘ Prod.fst := by
      funext p
      rfl
    rw [h1, ← List.map_map, List.enum_map_fst, hdata]
    refine List.Nodup.map_on ?_ (List.nodup_range _)
    intro f1 hf1 f2 hf2 he
    exact hunrankinj f1 (List.mem_range.mp hf1) f2 (List.mem_range.mp hf2) he
  have hatd : array_to_dictN x objs = .ok (x.data.enum.map (fun p => (objs.enum.map
      (fun q => invKeyFn q.2 ((unrank x.shape p.1).getD q.1 0)), p.2))) := by
    unfold array_to_dictN
    rw [if_neg (by omega)]
    rw [hrows]
    show Except.ok (pythonDict ((pyZip (objs.enum.map (fun q =>
      (List.range x.shape.prod).map
        (fun f => invKeyFn q.2 ((unrank x.shape f).getD q.1 0))))).zip x.data)) = _
    rw [hpyzip, hzipkeys, pythonDict_eq_self _ hnodup]
  rw [hatd]
  show dict_to_arrayN (x.data.enum.map (fun p => (objs.enum.map
      (fun q => invKeyFn q.2 ((unrank x.shape p.1).getD q.1 0)), p.2)))
    objs fill false = .ok x
  have hne : ∀ o ∈ objs, o.pairs ≠ [] := by
    intro o ho hnil
    obtain ⟨⟨a, ha0⟩, hget⟩ := List.mem_iff_get.mp ho
    have ha : a < objs.length := ha0
    have hperm := (hax a ha).2
    rw [hget] at hperm
    rw [hnil] at hperm
    have hlenr := hperm.length_eq
    simp only [List.map_nil, List.length_nil, List.length_range] at hlenr
    have hone : 1 ≤ x.shape.getD a 0 := by
      rw [getD_of_lt x.shape a (by omega)]
      exact hpos _ (List.get_mem x.shape a _)
    omega
  have hmapmax : objs.map (fun o => (o.pairs.map Prod.snd).foldl max 0 + 1) = x.shape :=
    map_maxfn_eq_shape objs x.shape hlen hpos (fun a ha => (hax a ha).2)
  have hshape : mapME maxPosPlusOne objs = .ok x.shape := by
    rw [← hmapmax]
    exact mapME_ok_map _ _ _ (fun o ho => maxPosPlusOne_ok_of_ne o (hne o ho))
  have hselok : ∀ f, f < x.shape.prod →
      selectorN objs (objs.enum.map
        (fun q => invKeyFn q.2 ((unrank x.shape f).getD q.1 0))) =
      .ok (unrank x.shape f) := by
    intro f hf
    unfold selectorN
    have hzip2 : (objs.enum.map (fun q =>
        invKeyFn q.2 ((unrank x.shape f).getD q.1 0))).zip objs =
        objs.enum.map (fun q =>
          (invKeyFn q.2 ((unrank x.shape f).getD q.1 0), q.2)) := by
      rw [zip_map_left_same, enum_zip_self, List.map_map]
      rfl
    rw [hzip2, mapME_map]
    have hres := mapME_ok_map
      (fun q : Nat × Selection α Nat =>
        q.2.lookup (invKeyFn q.2 ((unrank x.shape f).getD q.1 0)))
      (fun q : Nat × Selection α Nat => (unrank x.shape f).getD q.1 0)
      objs.enum
      (fun q hq => lookup_invKeyFn q.2 _ (haxq q hq).1 (hcoord q hq f hf))
    rw [show mapME (fun x_1 : Nat × Selection α Nat =>
      (fun p : α × Selection α Nat => p.2.lookup p.1)
        ((fun q : Nat × Selection α Nat =>
          (invKeyFn q.2 ((unrank x.shape f).getD q.1 0), q.2)) x_1)) objs.enum =
      mapME (fun q : Nat × Selection α Nat =>
        q.2.lookup (invKeyFn q.2 ((unrank x.shape f).getD q.1 0))) objs.enum from rfl]
    rw [hres]
    congr 1
    have h2 : (fun q : Nat × Selection α Nat => (unrank x.shape f).getD q.1 0) =
        (fun a => (unrank x.shape f).getD a 0) ∘ Prod.fst := by
      funext q
      rfl
    rw [h2, ← List.map_map, List.enum_map_fst]
    refine list_eq_range_map_getD objs.length (unrank x.shape f) ?_
    rw [unrank_length, hlen]
  have hresolve : resolveN objs false (x.data.enum.map (fun p => (objs.enum.map
      (fun q => invKeyFn q.2 ((unrank x.shape p.1).getD q.1 0)), p.2))) =
      .ok (x.data.enum.map (fun p => unrank x.shape p.1),
        (x.data.enum.map (fun p => (objs.enum.map
          (fun q => invKeyFn q.2 ((unrank x.shape p.1).getD q.1 0)), p.2))).map
            Prod.snd) := by
    refine resolveN_all objs false _ _ ?_
    refine forall₂_map_both _ _ _ x.data.enum ?_
    intro p hp
    show selectorN objs (objs.enum.map
      (fun q => invKeyFn q.2 ((unrank x.shape p.1).getD q.1 0))) =
      .ok (unrank x.shape p.1)
    refine hselok p.1 ?_
    have := enum_fst_lt hp
    omega
  have hvals : (x.data.enum.map (fun p => (objs.enum.map
      (fun q => invKeyFn q.2 ((unrank x.shape p.1).getD q.1 0)), p.2))).map
        Prod.snd = x.data := by
    rw [List.map_map]
    have h1 : (Prod.snd ∘ fun p : Nat × V => (objs.enum.map
        (fun q => invKeyFn q.2 ((unrank x.shape p.1).getD q.1 0)), p.2)) =
        Prod.snd := by
      funext p
      rfl
    rw [h1, List.enum_map_snd]
  have hNpos : 1 ≤ x.shape.prod := nat_prod_pos x.shape hpos
  have hcsne : ¬ ((x.data.enum.map (fun p => unrank x.shape p.1)).isEmpty = true) := by
    rw [List.isEmpty_iff]
    intro hmap
    have := congrArg List.length hmap
    simp only [List.length_map, List.enum_length, List.length_nil] at this
    omega
  have hwrites : ((x.data.enum.map (fun p => unrank x.shape p.1)).map
      (rank x.shape)).zip x.data = x.data.enum := by
    rw [List.map_map]
    have h1 : (x.data.enum.map (rank x.shape ∘ fun p => unrank x.shape p.1)) =
        x.data.enum.map Prod.fst := by
      refine List.map_congr_left ?_
      intro p hp
      show rank x.shape (unrank x.shape p.1) = p.1
      refine rank_unrank x.shape p.1 ?_
      have := enum_fst_lt hp
      omega
    rw [h1, zip_map_left_same Prod.fst x.data.enum x.data, enum_zip_self, List.map_map]
    exact enum_eta x.data
  simp only [dict_to_arrayN, hshape, hresolve, hvals]
  rw [if_neg hcsne, hwrites]
  rw [scatter_enum x.data (List.replicate x.shape.prod fill) (by simp [hdata])]

/-- C5 (amended): for every array with at least one axis, all axes of positive
length, and one well-formed Selection per axis whose dense position space
matches the axis length, `dict_to_array(array_to_dict(x, *sels), *sels)`
returns `x` exactly, for every fill value — so no cell is left at the fill
value. (Arrays with an empty axis are excluded: their empty axis selection
makes `dict_to_array` fail in the `max(obj.values())` shape computation, see
the counterexample.) The one-axis default path and the tuple-key path are
stated separately. -/
theorem C5_dict_array_roundtrip {α V : Type} [DecidableEq α] [Inhabited α] :
    (∀ (x : NDArray V) (obj : Selection α Nat) (fill : V) (n : Nat),
      x.shape = [n] → x.data.length = n → 1 ≤ n → obj.WF →
      List.Perm (obj.pairs.map Prod.snd) (List.range n) →
      (array_to_dict1 x obj).bind (fun d => dict_to_array1 d obj fill false) =
        .ok x.data) ∧
    (∀ (x : NDArray V) (objs : List (Selection α Nat)) (fill : V),
      x.shape.length = objs.length → 1 ≤ objs.length →
      x.data.length = x.shape.prod → (∀ dd ∈ x.shape, 1 ≤ dd) →
      (∀ a (ha : a < objs.length), (objs.get ⟨a, ha⟩).WF ∧
        List.Perm ((objs.get ⟨a, ha⟩).pairs.map Prod.snd)
          (List.range (x.shape.getD a 0))) →
      (array_to_dictN x objs).bind (fun d => dict_to_arrayN d objs fill false) =
        .ok x) :=
  ⟨fun x obj fill n hx hd hn hwf hdense =>
      roundtrip_one_dim x obj fill n hx hd hn hwf hdense,
    fun x objs fill hlen hk hdata hpos hax =>
      roundtrip_multi_dim x objs fill hlen hk hdata hpos hax⟩

/-- C5 counterexample: the empty array of shape `(0,)` with the (size-matched)
empty selection. `array_to_dict` produces the empty dictionary, but
`dict_to_array` fails in `max(obj.values()) + 1` (`max` of an empty view), so
the round trip errors instead of returning `x`. -/
theorem C5_counterexample :
    Selection.ofBoolArray ⟨[1], [false]⟩ = .ok (⟨[]⟩, ⟨[1], [false]⟩) ∧
    array_to_dict1 (⟨[0], []⟩ : NDArray Int) (⟨[]⟩ : Selection Nat Nat) = .ok [] ∧
    (array_to_dict1 (⟨[0], []⟩ : NDArray Int) (⟨[]⟩ : Selection Nat Nat)).bind
      (fun d => dict_to_array1 d (⟨[]⟩ : Selection Nat Nat) 0 false) =
      .error .emptySelectionError :=
  ⟨rfl, rfl, rfl⟩

/-- C5 witness: the round trip applied to a concrete vector with a two-key
selection and to a concrete 1-by-2 matrix with one selection per axis. -/
theorem C5_witness :
    (array_to_dict1 (⟨[2], [10, 20]⟩ : NDArray Int)
        (⟨[('a', 0), ('b', 1)]⟩ : Selection Char Nat)).bind
      (fun d => dict_to_array1 d (⟨[('a', 0), ('b', 1)]⟩ : Selection Char Nat)
        0 false) = .ok [10, 20] ∧
    (array_to_dictN (⟨[1, 2], [5, 6]⟩ : NDArray Int)
        [⟨[('r', 0)]⟩, ⟨[('u', 0), ('v', 1)]⟩]).bind
      (fun d => dict_to_arrayN d
        ([⟨[('r', 0)]⟩, ⟨[('u', 0), ('v', 1)]⟩] : List (Selection Char Nat))
        0 false) = .ok ⟨[1, 2], [5, 6]⟩ :=
  ⟨C5_dict_array_roundtrip.1 ⟨[2], [10, 20]⟩ ⟨[('a', 0), ('b', 1)]⟩ 0 2
      rfl rfl (by decide) (by decide) (by decide),
    C5_dict_array_roundtrip.2 ⟨[1, 2], [5, 6]⟩
      [⟨[('r', 0)]⟩, ⟨[('u', 0), ('v', 1)]⟩] 0
      rfl (by decide) rfl (by decide) (by decide)⟩
